import Mathlib

/-!
# Black-Scholes pricing model: embedding and verified properties

The C++ `double` is modelled by the real numbers `ℝ`: `std::exp`, `std::log`,
`std::sqrt`, `std::fabs` and `pow` become `Real.exp`, `Real.log`, `Real.sqrt`,
`|·|` and real powers. Rounding, overflow, NaN and infinities are outside this
model; every statement below is about the exact real-valued formulas that the
source code writes down.

The standard normal density and distribution function come from an external
library (`boost::math::normal`); they are modelled by their mathematical
definitions: the density by its formula, the distribution function by its
Maclaurin series, which `N_cdf_eq_integral` identifies with the integral of the
density over `(-∞, x]`.
-/

/-! ## NormalDistribution.h -/

/-- Standard normal density `boost::math::pdf(normal(0,1), x)`:
`exp(-(x*x)/2) / sqrt(2*pi)`. -/
noncomputable def N_pdf (x : ℝ) : ℝ :=
  Real.exp (-(x * x) / 2) / Real.sqrt (2 * Real.pi)

/-- Standard normal distribution function `boost::math::cdf(normal(0,1), x)`,
the probability `P(Z <= x)`, as its everywhere convergent Maclaurin series
`1/2 + (1/sqrt(2*pi)) * sum_n (-1)^n * x^(2n+1) / (2^n * n! * (2n+1))`. -/
noncomputable def N_cdf (x : ℝ) : ℝ :=
  1 / 2 + (tsum fun n : ℕ => (-1) ^ n * x ^ (2 * n + 1) / (2 ^ n * n.factorial * (2 * n + 1)))
    / Real.sqrt (2 * Real.pi)

/-! ## EuropeanOption.h / europeanOption.cpp -/

/-- The public data members of the class `EuropeanOption`. -/
structure EuropeanOption where
  r : ℝ
  sig : ℝ
  K : ℝ
  T : ℝ
  b : ℝ
  S : ℝ
  optType : String

namespace EuropeanOption

/-- Source: `EuropeanOption::CallPrice`. -/
noncomputable def CallPrice (opt : EuropeanOption) (S : ℝ) : ℝ :=
  let tmp := opt.sig * Real.sqrt opt.T
  let d1 := (Real.log (S / opt.K) + (opt.b + 0.5 * opt.sig * opt.sig) * opt.T) / tmp
  let d2 := d1 - tmp
  S * Real.exp ((opt.b - opt.r) * opt.T) * N_cdf d1
    - opt.K * Real.exp (-opt.r * opt.T) * N_cdf d2

/-- Source: `EuropeanOption::PutPrice`. -/
noncomputable def PutPrice (opt : EuropeanOption) (S : ℝ) : ℝ :=
  let tmp := opt.sig * Real.sqrt opt.T
  let d1 := (Real.log (S / opt.K) + (opt.b + 0.5 * opt.sig * opt.sig) * opt.T) / tmp
  let d2 := d1 - tmp
  opt.K * Real.exp (-opt.r * opt.T) * N_cdf (-d2)
    - S * Real.exp ((opt.b - opt.r) * opt.T) * N_cdf (-d1)

/-- Source: `EuropeanOption::Price`. -/
noncomputable def Price (opt : EuropeanOption) (S : ℝ) : ℝ :=
  if opt.optType = "C" then opt.CallPrice S else opt.PutPrice S

end EuropeanOption

/-! ## AmericanOption.h / americanOption.cpp -/

/-- The class `AmericanOption` derives from `EuropeanOption` and adds no data. -/
structure AmericanOption extends EuropeanOption

namespace AmericanOption

/-- Source: `AmericanOption::CallPriceAmerican`. (The local `b_sig` of the
source is computed but never read; the code writes `b / sig2` out again.) -/
noncomputable def CallPriceAmerican (opt : AmericanOption) (S : ℝ) : ℝ :=
  let sig2 := opt.sig * opt.sig
  let sqrtTerm := Real.sqrt ((opt.b / sig2 - 0.5) ^ (2 : ℝ) + 2 * opt.r / sig2)
  let y1 := 0.5 - (opt.b / sig2) + sqrtTerm
  if y1 > 1.0 then
    (opt.K / (y1 - 1.0)) * ((y1 - 1.0) / y1 * S / opt.K) ^ y1
  else 0.0

/-- Source: `AmericanOption::PutPriceAmerican`. -/
noncomputable def PutPriceAmerican (opt : AmericanOption) (S : ℝ) : ℝ :=
  let sig2 := opt.sig * opt.sig
  let sqrtTerm := Real.sqrt ((opt.b / sig2 - 0.5) ^ (2 : ℝ) + 2 * opt.r / sig2)
  let y2 := 0.5 - (opt.b / sig2) - sqrtTerm
  if y2 < 0.0 then
    (opt.K / (1.0 - y2)) * ((y2 - 1.0) / y2 * S / opt.K) ^ y2
  else 0.0

/-- Source: `AmericanOption::Price` (overrides `EuropeanOption::Price`). -/
noncomputable def Price (opt : AmericanOption) (S : ℝ) : ℝ :=
  if opt.optType = "C" then opt.CallPriceAmerican S else opt.PutPriceAmerican S

end AmericanOption

/-! ## Greeks.h / greeks.cpp -/

namespace Greeks

/-- Source: `Greeks::Delta`. -/
noncomputable def Delta (opt : EuropeanOption) (S : ℝ) : ℝ :=
  let tmp := opt.sig * Real.sqrt opt.T
  let d1 := (Real.log (S / opt.K) + (opt.b + 0.5 * opt.sig * opt.sig) * opt.T) / tmp
  if opt.optType = "C" then
    Real.exp ((opt.b - opt.r) * opt.T) * N_cdf d1
  else
    Real.exp ((opt.b - opt.r) * opt.T) * (N_cdf d1 - 1.0)

/-- Source: `Greeks::Gamma`. -/
noncomputable def Gamma (opt : EuropeanOption) (S : ℝ) : ℝ :=
  let tmp := opt.sig * Real.sqrt opt.T
  let d1 := (Real.log (S / opt.K) + (opt.b + 0.5 * opt.sig * opt.sig) * opt.T) / tmp
  Real.exp ((opt.b - opt.r) * opt.T) * N_pdf d1 / (S * tmp)

/-- Source: `Greeks::Vega`. -/
noncomputable def Vega (opt : EuropeanOption) (S : ℝ) : ℝ :=
  let tmp := opt.sig * Real.sqrt opt.T
  let d1 := (Real.log (S / opt.K) + (opt.b + 0.5 * opt.sig * opt.sig) * opt.T) / tmp
  S * Real.exp ((opt.b - opt.r) * opt.T) * N_pdf d1 * Real.sqrt opt.T

/-- Source: `Greeks::Theta`. -/
noncomputable def Theta (opt : EuropeanOption) (S : ℝ) : ℝ :=
  let tmp := opt.sig * Real.sqrt opt.T
  let d1 := (Real.log (S / opt.K) + (opt.b + 0.5 * opt.sig * opt.sig) * opt.T) / tmp
  let d2 := d1 - tmp
  if opt.optType = "C" then
    -(S * opt.sig * Real.exp ((opt.b - opt.r) * opt.T) * N_pdf d1) / (2 * Real.sqrt opt.T)
      - (opt.b - opt.r) * S * Real.exp ((opt.b - opt.r) * opt.T) * N_cdf d1
      - opt.r * opt.K * Real.exp (-opt.r * opt.T) * N_cdf d2
  else
    -(S * opt.sig * Real.exp ((opt.b - opt.r) * opt.T) * N_pdf d1) / (2 * Real.sqrt opt.T)
      + (opt.b - opt.r) * S * Real.exp ((opt.b - opt.r) * opt.T) * N_cdf (-d1)
      + opt.r * opt.K * Real.exp (-opt.r * opt.T) * N_cdf (-d2)

/-- Source: `Greeks::Rho`. -/
noncomputable def Rho (opt : EuropeanOption) (S : ℝ) : ℝ :=
  let tmp := opt.sig * Real.sqrt opt.T
  let d1 := (Real.log (S / opt.K) + (opt.b + 0.5 * opt.sig * opt.sig) * opt.T) / tmp
  let d2 := d1 - tmp
  if opt.optType = "C" then
    opt.K * opt.T * Real.exp (-opt.r * opt.T) * N_cdf d2
  else
    -opt.K * opt.T * Real.exp (-opt.r * opt.T) * N_cdf (-d2)

end Greeks

/-! ## OptionUtilities.h -/

/-- Source: `parityError`. -/
noncomputable def parityError (C P S K r b T : ℝ) : ℝ :=
  let lhs := C - P
  let rhs := S * Real.exp ((b - r) * T) - K * Real.exp (-r * T)
  |lhs - rhs|

/-- Source: `CheckParity`; the last parameter has the default value `1e-6`. -/
noncomputable def CheckParity (C P S K r T : ℝ) (tol : ℝ := 1e-6) : Bool :=
  let left := C - P
  let right := S - K * Real.exp (-r * T)
  decide (|left - right| < tol)

/-! ## Objects behind a reference `EuropeanOption&` -/

/-- An object reached through a reference of static type `EuropeanOption&`: its
dynamic type is either `EuropeanOption` itself or the derived `AmericanOption`. -/
inductive OptionRef where
  | european (o : EuropeanOption)
  | american (o : AmericanOption)

namespace OptionRef

/-- The `EuropeanOption` subobject, where the public data members live. -/
def base : OptionRef → EuropeanOption
  | european o => o
  | american o => o.toEuropeanOption

/-- The virtual call `opt.Price(S)`: dispatches on the dynamic type. -/
noncomputable def Price : OptionRef → ℝ → ℝ
  | european o, S => o.Price S
  | american o, S => o.Price S

/-- Assignment to data members through the reference: the dynamic type stays. -/
def modify (f : EuropeanOption → EuropeanOption) : OptionRef → OptionRef
  | european o => european (f o)
  | american o => american { o with toEuropeanOption := f o.toEuropeanOption }

end OptionRef

namespace Greeks

/-- Source: `Greeks::DeltaFD`. -/
noncomputable def DeltaFD (opt : OptionRef) (S h : ℝ) : ℝ :=
  (opt.Price (S + h) - opt.Price (S - h)) / (2.0 * h)

/-- Source: `Greeks::GammaFD`. -/
noncomputable def GammaFD (opt : OptionRef) (S h : ℝ) : ℝ :=
  (opt.Price (S + h) - 2.0 * opt.Price S + opt.Price (S - h)) / (h * h)

end Greeks

/-! ## MatrixPricer.h / matrixPricer.cpp -/

/-- Source: `enum class OutputType`. -/
inductive OutputType where
  | Price
  | Delta
  | Gamma
  | Vega
  | Theta
  | Rho
  | DeltaFD
  | GammaFD
  deriving DecidableEq

namespace MatrixPricer

/-- Source: `MatrixPricer::Vector`. The range-for loop pushes one value per spot
onto `result`; the exact Greeks read the data members of the base subobject, the
price and the finite differences go through the virtual `Price`. -/
noncomputable def Vector (opt : OptionRef) (S_values : List ℝ) (output : OutputType)
    (h : ℝ := 0.01) : List ℝ :=
  S_values.foldl (fun result S =>
    match output with
    | OutputType.Price => result ++ [opt.Price S]
    | OutputType.Delta => result ++ [Greeks.Delta opt.base S]
    | OutputType.Gamma => result ++ [Greeks.Gamma opt.base S]
    | OutputType.Vega => result ++ [Greeks.Vega opt.base S]
    | OutputType.Theta => result ++ [Greeks.Theta opt.base S]
    | OutputType.Rho => result ++ [Greeks.Rho opt.base S]
    | OutputType.DeltaFD => result ++ [Greeks.DeltaFD opt S h]
    | OutputType.GammaFD => result ++ [Greeks.GammaFD opt S h]) []

/-- The five assignments at the head of the loop body of `MatrixPricer::Matrix`.
The source indexes the row with `p[0]` ... `p[3]` without a bounds check; a read
past the end of the row has no defined result, which is `none` here. -/
def assignRow (opt : OptionRef) (p : List ℝ) : Option OptionRef := do
  let p0 ← p[0]?
  let opt := opt.modify fun e => { e with T := p0 }
  let p1 ← p[1]?
  let opt := opt.modify fun e => { e with K := p1 }
  let p2 ← p[2]?
  let opt := opt.modify fun e => { e with sig := p2 }
  let p3 ← p[3]?
  let opt := opt.modify fun e => { e with r := p3 }
  let bval ← if p.length > 4 then p[4]? else some opt.base.r
  pure (opt.modify fun e => { e with b := bval })

/-- Source: `MatrixPricer::Matrix`. The contract is passed by reference and
overwritten row after row, so the result carries the final contract next to the
surface. `none` stands for the undefined result of an out-of-bounds read. -/
noncomputable def Matrix (opt : OptionRef) (paramMatrix : List (List ℝ)) (S_values : List ℝ)
    (output : OutputType) (h : ℝ := 0.01) : Option (List (List ℝ) × OptionRef) :=
  paramMatrix.foldlM (fun st p => do
    let opt ← assignRow st.2 p
    pure (st.1 ++ [Vector opt S_values output h], opt)) ([], opt)

end MatrixPricer

/-! ## Quantities named by the specification -/

/-- The contract bound to one parameter row, in the words of the specification:
`T, K, sig, r` are the first four values of the row and `b` is the fifth value
if present and the row's `r` otherwise (positions missing from the row read as
`0`; the theorems only use rows with at least four values). -/
def rowContract (opt : OptionRef) (p : List ℝ) : OptionRef :=
  opt.modify fun e =>
    { e with
      T := p.getD 0 0, K := p.getD 1 0, sig := p.getD 2 0, r := p.getD 3 0,
      b := if 4 < p.length then p.getD 4 0 else p.getD 3 0 }

/-! ## Sample contracts used to instantiate the theorems -/

/-- The European call of `main.cpp`, second batch: `T = 1, K = 100, sig = 0.2,
r = b = 0.05`. -/
noncomputable def sampleCall : EuropeanOption :=
  { r := 0.05, sig := 0.2, K := 100, T := 1, b := 0.05, S := 100, optType := "C" }

/-- The same contract as a put. -/
noncomputable def samplePut : EuropeanOption :=
  { r := 0.05, sig := 0.2, K := 100, T := 1, b := 0.05, S := 100, optType := "P" }

/-- A perpetual American call with `K = 100, sig = 0.1, r = 0.1, b = 0.02`. -/
noncomputable def sampleAmericanCall : AmericanOption :=
  { r := 0.1, sig := 0.1, K := 100, T := 1, b := 0.02, S := 110, optType := "C" }

/-- The same perpetual contract as a put. -/
noncomputable def sampleAmericanPut : AmericanOption :=
  { r := 0.1, sig := 0.1, K := 100, T := 1, b := 0.02, S := 110, optType := "P" }

/-- A call with zero rates and unit strike, volatility and maturity. -/
noncomputable def unitCall : EuropeanOption :=
  { r := 0, sig := 1, K := 1, T := 1, b := 0, S := 1, optType := "C" }

/-- The parameter table `paramMatrixA` of `main.cpp`: rows `T, K, sig, r, b`. -/
def sampleParamMatrixA : List (List ℝ) :=
  [[0, 100.0, 0.1, 0.1, 0.02], [0, 100.0, 0.15, 0.1, 0.02], [0, 100.0, 0.2, 0.1, 0.02]]

/-- A table whose only row has three values. -/
def shortParamMatrix : List (List ℝ) :=
  [[1.0, 100.0, 0.15]]

/-! ## Constructors (europeanOption.cpp, americanOption.cpp) -/

/-- Source: the default constructor `EuropeanOption::EuropeanOption()`. It
assigns `r, sig, K, T`, then `b = r`, then `optType`; the member `S` is left
uninitialised, its indeterminate value is the parameter `S0`. -/
noncomputable def EuropeanOption.construct (S0 : ℝ) : EuropeanOption :=
  let r : ℝ := 0.05
  { r := r, sig := 0.2, K := 100.0, T := 1.0, b := r, S := S0, optType := "C" }

/-- Source: `EuropeanOption::EuropeanOption(const std::string& optionType)`,
which delegates to the default constructor and then overrides `optType`. -/
noncomputable def EuropeanOption.constructWithType (optionType : String) (S0 : ℝ) :
    EuropeanOption :=
  { EuropeanOption.construct S0 with optType := optionType }

/-- Source: `AmericanOption::AmericanOption()`, the base default constructor. -/
noncomputable def AmericanOption.construct (S0 : ℝ) : AmericanOption :=
  { toEuropeanOption := EuropeanOption.construct S0 }

/-- Source: `AmericanOption::AmericanOption(const std::string& optionType)`, the
base constructor with an option type. -/
noncomputable def AmericanOption.constructWithType (optionType : String) (S0 : ℝ) :
    AmericanOption :=
  { toEuropeanOption := EuropeanOption.constructWithType optionType S0 }

/-! ## OptionUtilities.h: parity conversions -/

/-- Source: `PutFromCall`. -/
noncomputable def PutFromCall (C S K r T : ℝ) : ℝ :=
  C - S + K * Real.exp (-r * T)

/-- Source: `CallFromPut`. -/
noncomputable def CallFromPut (P S K r T : ℝ) : ℝ :=
  P + S - K * Real.exp (-r * T)

/-! ## MeshGenerator.h / meshGenerator.cpp -/

namespace MeshGenerator

end MeshGenerator

/-! ## The standard normal distribution -/

/-- The distribution function is differentiable everywhere, with the density as
its derivative: the series is differentiated termwise. -/
theorem N_cdf_hasDerivAt (x : ℝ) : HasDerivAt N_cdf (N_pdf x) x := by
  have hterm : ∀ (n : ℕ) (y : ℝ), y ∈ Metric.ball (0 : ℝ) (|x| + 1) →
      HasDerivAt (fun z : ℝ => (-1) ^ n * z ^ (2 * n + 1) / (2 ^ n * n.factorial * (2 * n + 1)))
        ((-(y * y) / 2) ^ n / n.factorial) y := by
    intro n y _
    have h := ((hasDerivAt_pow (2 * n + 1) y).const_mul ((-1 : ℝ) ^ n)).div_const
      ((2 : ℝ) ^ n * n.factorial * (2 * n + 1))
    refine h.congr_deriv ?_
    have h1 : (n.factorial : ℝ) ≠ 0 := Nat.cast_ne_zero.mpr n.factorial_ne_zero
    have h2 : (2 * (n : ℝ) + 1) ≠ 0 := by positivity
    have h3 : (-(y * y) / 2) ^ n = (-1) ^ n * y ^ (2 * n) / 2 ^ n := by
      rw [div_pow, neg_pow, ← pow_two, ← pow_mul]
    rw [h3]
    push_cast
    field_simp
    ring
  have hbound : ∀ (n : ℕ) (y : ℝ), y ∈ Metric.ball (0 : ℝ) (|x| + 1) →
      ‖(-(y * y) / 2) ^ n / n.factorial‖ ≤ ((|x| + 1) * (|x| + 1) / 2) ^ n / n.factorial := by
    intro n y hy
    rw [Metric.mem_ball, dist_zero_right, Real.norm_eq_abs] at hy
    rw [norm_div, norm_pow, Real.norm_eq_abs, Real.norm_eq_abs, Nat.abs_cast]
    apply div_le_div_of_nonneg_right _ (Nat.cast_nonneg _)
    apply pow_le_pow_left₀ (abs_nonneg _)
    rw [abs_div, abs_neg, abs_mul, abs_of_pos (two_pos : (0 : ℝ) < 2)]
    have := mul_le_mul hy.le hy.le (abs_nonneg y) (by positivity)
    linarith
  have hx : x ∈ Metric.ball (0 : ℝ) (|x| + 1) := by
    rw [Metric.mem_ball, dist_zero_right, Real.norm_eq_abs]; linarith
  have h0 : (0 : ℝ) ∈ Metric.ball (0 : ℝ) (|x| + 1) := by
    rw [Metric.mem_ball, dist_self]; positivity
  have hsum0 : Summable fun n : ℕ =>
      (-1 : ℝ) ^ n * (0 : ℝ) ^ (2 * n + 1) / (2 ^ n * n.factorial * (2 * n + 1)) := by
    have : (fun n : ℕ =>
        (-1 : ℝ) ^ n * (0 : ℝ) ^ (2 * n + 1) / (2 ^ n * n.factorial * (2 * n + 1)))
        = fun _ => 0 := by
      funext n; rw [zero_pow (Nat.succ_ne_zero _), mul_zero, zero_div]
    rw [this]; exact summable_zero
  have hseries := hasDerivAt_tsum_of_isPreconnected
    (Real.summable_pow_div_factorial ((|x| + 1) * (|x| + 1) / 2)) Metric.isOpen_ball
    (convex_ball (0 : ℝ) (|x| + 1)).isPreconnected hterm hbound h0 hsum0 hx
  have hexp : (tsum fun n : ℕ => (-(x * x) / 2) ^ n / n.factorial)
      = Real.exp (-(x * x) / 2) := by
    rw [Real.exp_eq_exp_ℝ, NormedSpace.exp_eq_tsum_div]
  rw [hexp] at hseries
  exact (hseries.div_const (Real.sqrt (2 * Real.pi))).const_add (1 / 2)

/-- Symmetry of the standard normal: `cdf(-x) = 1 - cdf(x)`. -/
theorem N_cdf_neg (x : ℝ) : N_cdf (-x) = 1 - N_cdf x := by
  have hodd : ∀ n : ℕ, (-1 : ℝ) ^ n * (-x) ^ (2 * n + 1) / (2 ^ n * n.factorial * (2 * n + 1))
      = -((-1) ^ n * x ^ (2 * n + 1) / (2 ^ n * n.factorial * (2 * n + 1))) := by
    intro n
    rw [Odd.neg_pow ⟨n, rfl⟩]
    ring
  delta N_cdf
  simp only [hodd, tsum_neg]
  ring

open MeasureTheory

/-- The series `N_cdf` is the distribution function of the density `N_pdf`:
`N_cdf x` is the integral of `N_pdf` over `(-∞, x]`. -/
theorem N_cdf_eq_integral (x : ℝ) : N_cdf x = ∫ t in Set.Iic x, N_pdf t := by
  have hgauss : N_pdf = ProbabilityTheory.gaussianPDFReal 0 1 := by
    funext t
    delta N_pdf
    simp [ProbabilityTheory.gaussianPDFReal, div_eq_inv_mul, ← pow_two]
  have hcont : Continuous N_pdf := by
    delta N_pdf; fun_prop
  have hint : Integrable N_pdf := by
    rw [hgauss]; exact ProbabilityTheory.integrable_gaussianPDFReal 0 1
  have htotal : ∫ t, N_pdf t = 1 := by
    rw [hgauss]
    exact ProbabilityTheory.integral_gaussianPDFReal_eq_one 0 one_ne_zero
  have heven : ∀ t, N_pdf (-t) = N_pdf t := by
    intro t; delta N_pdf; simp
  -- half of the mass lies to the left of the origin
  have hhalf : ∫ t in Set.Iic (0 : ℝ), N_pdf t = 1 / 2 := by
    have hneg : ∫ t in Set.Iic (0 : ℝ), N_pdf t = ∫ t in Set.Ioi (0 : ℝ), N_pdf t := by
      have h := integral_comp_neg_Ioi (0 : ℝ) N_pdf
      simp only [heven, neg_zero] at h
      exact h.symm
    have hsum := integral_add_compl (μ := volume) (f := N_pdf) (s := Set.Iic (0 : ℝ))
      measurableSet_Iic hint
    rw [Set.compl_Iic, htotal] at hsum
    linarith
  have hsplit := intervalIntegral.integral_Iic_sub_Iic (μ := volume) (f := N_pdf)
    (a := (0 : ℝ)) (b := x) hint.integrableOn hint.integrableOn
  have hftc : ∫ t in (0 : ℝ)..x, N_pdf t = N_cdf x - N_cdf 0 :=
    intervalIntegral.integral_eq_sub_of_hasDerivAt (fun t _ => N_cdf_hasDerivAt t)
      (hcont.intervalIntegrable _ _)
  have hzero : N_cdf 0 = 1 / 2 := by
    have h := N_cdf_neg 0
    rw [neg_zero] at h
    linarith
  linarith

/-! ## Numerical enclosure of the distribution function -/

/-- Two-sided Taylor enclosure of the exponential on `[-1, 1]`. -/
theorem exp_taylor_enclosure (x : ℝ) (hx : |x| ≤ 1) (n : ℕ) (hn : 0 < n) :
    (∑ m ∈ Finset.range n, x ^ m / m.factorial) - |x| ^ n * (n.succ / (n.factorial * n))
        ≤ Real.exp x
      ∧ Real.exp x
        ≤ (∑ m ∈ Finset.range n, x ^ m / m.factorial) + |x| ^ n * (n.succ / (n.factorial * n)) := by
  have h := abs_le.mp (Real.exp_bound hx hn)
  constructor <;> linarith [h.1, h.2]

set_option maxHeartbeats 800000 in
/-- Enclosure of the distribution function at a point of `[0, 1]`: the
antiderivative of the Gaussian kernel lies between two polynomials in `a`, and
`sqrt(2*pi)` between two decimals. -/
theorem N_cdf_enclosure (a lo hi : ℝ) (h0 : 0 ≤ a) (h1 : a ≤ 1)
    (hlo0 : 1 / 2 ≤ lo) (hhi0 : 1 / 2 ≤ hi)
    (hlo : (lo - 1 / 2) * 2.506628274632
      ≤ a - a ^ 3 / 6 + a ^ 5 / 40 - a ^ 7 / 336 + a ^ 9 / 3456 - a ^ 11 / 35200)
    (hhi : a - a ^ 3 / 6 + a ^ 5 / 40 - a ^ 7 / 336 + a ^ 9 / 3456 + a ^ 11 / 35200
      ≤ (hi - 1 / 2) * 2.506628274631) :
    lo ≤ N_cdf a ∧ N_cdf a ≤ hi := by
  have hzero : N_cdf 0 = 1 / 2 := by
    have h := N_cdf_neg 0
    rw [neg_zero] at h
    linarith
  -- enclosure of the Gaussian kernel by polynomials on `[0, 1]`
  have hgk : ∀ t : ℝ, 0 ≤ t → t ≤ 1 →
      1 - t ^ 2 / 2 + t ^ 4 / 8 - t ^ 6 / 48 + t ^ 8 / 384 - t ^ 10 / 3200
          ≤ Real.exp (-(t * t) / 2)
        ∧ Real.exp (-(t * t) / 2)
          ≤ 1 - t ^ 2 / 2 + t ^ 4 / 8 - t ^ 6 / 48 + t ^ 8 / 384 + t ^ 10 / 3200 := by
    intro t ht0 ht1
    have hu : |(-(t * t) / 2)| ≤ 1 := by
      rw [abs_le]; constructor <;> nlinarith
    have habs : |(-(t * t) / 2)| = t * t / 2 := by
      rw [abs_of_nonpos (by nlinarith)]; ring
    have h := exp_taylor_enclosure (-(t * t) / 2) hu 5 (by norm_num)
    rw [habs] at h
    simp only [Finset.sum_range_succ, Finset.sum_range_zero, Nat.factorial] at h
    norm_num at h
    obtain ⟨hl, hr⟩ := h
    constructor
    · have e : 1 - t ^ 2 / 2 + t ^ 4 / 8 - t ^ 6 / 48 + t ^ 8 / 384 - t ^ 10 / 3200
          = 1 + -(t * t) / 2 + (-(t * t) / 2) ^ 2 / 2 + (-(t * t) / 2) ^ 3 / 6
            + (-(t * t) / 2) ^ 4 / 24 - (t * t / 2) ^ 5 * (1 / 100) := by ring
      rw [e]; linarith
    · have e : 1 - t ^ 2 / 2 + t ^ 4 / 8 - t ^ 6 / 48 + t ^ 8 / 384 + t ^ 10 / 3200
          = 1 + -(t * t) / 2 + (-(t * t) / 2) ^ 2 / 2 + (-(t * t) / 2) ^ 3 / 6
            + (-(t * t) / 2) ^ 4 / 24 + (t * t / 2) ^ 5 * (1 / 100) := by ring
      rw [e]; linarith
  -- derivative of the odd polynomial that integrates the kernel enclosure
  have hgp : ∀ c t : ℝ,
      HasDerivAt (fun x : ℝ => x - x ^ 3 / 6 + x ^ 5 / 40 - x ^ 7 / 336 + x ^ 9 / 3456
          + c * x ^ 11)
        (1 - t ^ 2 / 2 + t ^ 4 / 8 - t ^ 6 / 48 + t ^ 8 / 384 + c * (11 * t ^ 10)) t := by
    intro c t
    have k1 := hasDerivAt_id t
    have k3 := (hasDerivAt_pow 3 t).div_const 6
    have k5 := (hasDerivAt_pow 5 t).div_const 40
    have k7 := (hasDerivAt_pow 7 t).div_const 336
    have k9 := (hasDerivAt_pow 9 t).div_const 3456
    have k11 := (hasDerivAt_pow 11 t).const_mul c
    have h := ((((k1.sub k3).add k5).sub k7).add k9).add k11
    refine h.congr_deriv ?_
    norm_num
    ring
  -- decimal enclosure of `sqrt(2*pi)`
  have hsp : (2.506628274631 : ℝ) ≤ Real.sqrt (2 * Real.pi)
      ∧ Real.sqrt (2 * Real.pi) ≤ 2.506628274632 := by
    have hp1 := Real.pi_gt_d20
    have hp2 := Real.pi_lt_d20
    constructor
    · apply Real.le_sqrt_of_sq_le
      nlinarith
    · rw [Real.sqrt_le_left (by norm_num)]
      nlinarith
  have hkernel : ∀ t : ℝ, Real.sqrt (2 * Real.pi) * N_pdf t = Real.exp (-(t * t) / 2) := by
    intro t
    have hs : Real.sqrt (2 * Real.pi) ≠ 0 := (Real.sqrt_pos.mpr (by positivity)).ne.symm
    delta N_pdf
    field_simp
  have hcdf : ∀ t : ℝ, HasDerivAt (fun x => Real.sqrt (2 * Real.pi) * N_cdf x)
      (Real.exp (-(t * t) / 2)) t := by
    intro t
    have h := (N_cdf_hasDerivAt t).const_mul (Real.sqrt (2 * Real.pi))
    rwa [hkernel] at h
  -- the lower gap is nondecreasing on `[0, 1]`
  have hmlo : MonotoneOn (fun x => Real.sqrt (2 * Real.pi) * N_cdf x
      - (x - x ^ 3 / 6 + x ^ 5 / 40 - x ^ 7 / 336 + x ^ 9 / 3456 + (-(1 / 35200)) * x ^ 11))
      (Set.Icc 0 1) := by
    have hd : ∀ t : ℝ, HasDerivAt (fun x => Real.sqrt (2 * Real.pi) * N_cdf x
        - (x - x ^ 3 / 6 + x ^ 5 / 40 - x ^ 7 / 336 + x ^ 9 / 3456
          + (-(1 / 35200)) * x ^ 11))
        (Real.exp (-(t * t) / 2) - (1 - t ^ 2 / 2 + t ^ 4 / 8 - t ^ 6 / 48 + t ^ 8 / 384
          + (-(1 / 35200)) * (11 * t ^ 10))) t :=
      fun t => (hcdf t).sub (hgp _ t)
    apply monotoneOn_of_deriv_nonneg (convex_Icc 0 1)
    · exact fun t _ => (hd t).continuousAt.continuousWithinAt
    · exact fun t _ => (hd t).differentiableAt.differentiableWithinAt
    · intro t ht
      rw [interior_Icc] at ht
      rw [(hd t).deriv]
      have hk := (hgk t ht.1.le ht.2.le).1
      linarith
  -- the upper gap is nondecreasing on `[0, 1]`
  have hmhi : MonotoneOn (fun x => (x - x ^ 3 / 6 + x ^ 5 / 40 - x ^ 7 / 336 + x ^ 9 / 3456
      + (1 / 35200) * x ^ 11) - Real.sqrt (2 * Real.pi) * N_cdf x) (Set.Icc 0 1) := by
    have hd : ∀ t : ℝ, HasDerivAt (fun x => (x - x ^ 3 / 6 + x ^ 5 / 40 - x ^ 7 / 336
        + x ^ 9 / 3456 + (1 / 35200) * x ^ 11) - Real.sqrt (2 * Real.pi) * N_cdf x)
        ((1 - t ^ 2 / 2 + t ^ 4 / 8 - t ^ 6 / 48 + t ^ 8 / 384
          + (1 / 35200) * (11 * t ^ 10)) - Real.exp (-(t * t) / 2)) t :=
      fun t => (hgp _ t).sub (hcdf t)
    apply monotoneOn_of_deriv_nonneg (convex_Icc 0 1)
    · exact fun t _ => (hd t).continuousAt.continuousWithinAt
    · exact fun t _ => (hd t).differentiableAt.differentiableWithinAt
    · intro t ht
      rw [interior_Icc] at ht
      rw [(hd t).deriv]
      have hk := (hgk t ht.1.le ht.2.le).2
      linarith
  have hmem0 : (0 : ℝ) ∈ Set.Icc (0 : ℝ) 1 := ⟨le_refl _, zero_le_one⟩
  have hmema : a ∈ Set.Icc (0 : ℝ) 1 := ⟨h0, h1⟩
  have hl := hmlo hmem0 hmema h0
  have hh := hmhi hmem0 hmema h0
  simp only [hzero] at hl hh
  obtain ⟨hs1, hs2⟩ := hsp
  clear hgk hgp hkernel hcdf hmlo hmhi hzero
  have hs : 0 < Real.sqrt (2 * Real.pi) := by linarith
  generalize Real.sqrt (2 * Real.pi) = s at hl hh hs1 hs2 hs
  norm_num at hl hh
  constructor
  · have h : s * (lo - 1 / 2) ≤ s * (N_cdf a - 1 / 2) := by nlinarith
    have := le_of_mul_le_mul_left h hs
    linarith
  · have h : s * (N_cdf a - 1 / 2) ≤ s * (hi - 1 / 2) := by nlinarith
    have := le_of_mul_le_mul_left h hs
    linarith

/-! ## European price: closed form and put-call parity -/

/-- The call and the put on the same contract data differ by the forward minus
the discounted strike. -/
theorem EuropeanOption.call_sub_put (opt : EuropeanOption) (S : ℝ) :
    opt.CallPrice S - opt.PutPrice S
      = S * Real.exp ((opt.b - opt.r) * opt.T) - opt.K * Real.exp (-opt.r * opt.T) := by
  delta EuropeanOption.CallPrice EuropeanOption.PutPrice
  simp only [N_cdf_neg]
  ring

/-- C1: put-call parity for the European variant. For positive spot, strike,
volatility and maturity, the call price `C` and the put price `P` of the same
contract satisfy `parityError(C, P, S, K, r, b, T) < 1e-9`, because
`C - P = S*e^((b-r)T) - K*e^(-rT)` holds exactly. -/
theorem european_put_call_parity (opt : EuropeanOption) (S : ℝ)
    (hS : 0 < S) (hK : 0 < opt.K) (hsig : 0 < opt.sig) (hT : 0 < opt.T) :
    parityError (EuropeanOption.Price { opt with optType := "C" } S)
        (EuropeanOption.Price { opt with optType := "P" } S) S opt.K opt.r opt.b opt.T < 1e-9
      ∧ EuropeanOption.Price { opt with optType := "C" } S
          - EuropeanOption.Price { opt with optType := "P" } S
        = S * Real.exp ((opt.b - opt.r) * opt.T) - opt.K * Real.exp (-opt.r * opt.T) := by
  have hCP : EuropeanOption.Price { opt with optType := "C" } S
          - EuropeanOption.Price { opt with optType := "P" } S
        = S * Real.exp ((opt.b - opt.r) * opt.T) - opt.K * Real.exp (-opt.r * opt.T) :=
    EuropeanOption.call_sub_put opt S
  refine ⟨?_, hCP⟩
  delta parityError
  simp only [hCP, sub_self, abs_zero]
  norm_num

theorem european_put_call_parity_witness :
    (0 : ℝ) < 100 ∧ 0 < sampleCall.K ∧ 0 < sampleCall.sig ∧ 0 < sampleCall.T
      ∧ parityError (EuropeanOption.Price { sampleCall with optType := "C" } 100)
        (EuropeanOption.Price { sampleCall with optType := "P" } 100) 100
        sampleCall.K sampleCall.r sampleCall.b sampleCall.T < 1e-9
      ∧ EuropeanOption.Price { sampleCall with optType := "C" } 100
          - EuropeanOption.Price { sampleCall with optType := "P" } 100
        = 100 * Real.exp ((sampleCall.b - sampleCall.r) * sampleCall.T)
          - sampleCall.K * Real.exp (-sampleCall.r * sampleCall.T) :=
  have hK : 0 < sampleCall.K := by show (0 : ℝ) < 100; norm_num
  have hsig : 0 < sampleCall.sig := by show (0 : ℝ) < 0.2; norm_num
  have hT : 0 < sampleCall.T := by show (0 : ℝ) < 1; norm_num
  ⟨by norm_num, hK, hsig, hT, european_put_call_parity sampleCall 100 (by norm_num) hK hsig hT⟩

/-- C2: the European price is the Black-Scholes closed form. With
`d1 = (ln(S/K) + (b + 0.5*sig^2)*T)/(sig*sqrt(T))` and `d2 = d1 - sig*sqrt(T)`,
`Price(S)` is `S*e^((b-r)T)*cdf(d1) - K*e^(-rT)*cdf(d2)` when `optType` is "C"
and `K*e^(-rT)*cdf(-d2) - S*e^((b-r)T)*cdf(-d1)` for every other `optType`. -/
theorem european_price_closed_form (opt : EuropeanOption) (S : ℝ) :
    let d1 := (Real.log (S / opt.K) + (opt.b + 0.5 * opt.sig ^ 2) * opt.T)
      / (opt.sig * Real.sqrt opt.T)
    let d2 := d1 - opt.sig * Real.sqrt opt.T
    opt.Price S =
      if opt.optType = "C" then
        S * Real.exp ((opt.b - opt.r) * opt.T) * N_cdf d1
          - opt.K * Real.exp (-opt.r * opt.T) * N_cdf d2
      else
        opt.K * Real.exp (-opt.r * opt.T) * N_cdf (-d2)
          - S * Real.exp ((opt.b - opt.r) * opt.T) * N_cdf (-d1) := by
  delta EuropeanOption.Price EuropeanOption.CallPrice EuropeanOption.PutPrice
  simp only [pow_two, mul_assoc]

/-! ## Perpetual American price -/

/-- C3: perpetual American call. For `optType` "C", with `sig2 = sig^2`,
`bs = b/sig2`, `disc = sqrt((bs - 0.5)^2 + 2r/sig2)` and `y1 = 0.5 - bs + disc`,
`Price(S)` is `K/(y1-1) * ((y1-1)/y1 * S/K)^y1` if `y1 > 1` and exactly `0`
if `y1 <= 1`. -/
theorem american_call_closed_form (opt : AmericanOption) (S : ℝ) (hC : opt.optType = "C") :
    let sig2 := opt.sig ^ 2
    let bs := opt.b / sig2
    let disc := Real.sqrt ((bs - 0.5) ^ 2 + 2 * opt.r / sig2)
    let y1 := 0.5 - bs + disc
    (1 < y1 → opt.Price S = opt.K / (y1 - 1) * ((y1 - 1) / y1 * S / opt.K) ^ y1)
      ∧ (y1 ≤ 1 → opt.Price S = 0) := by
  intro sig2 bs disc y1
  have hy : 0.5 - opt.b / (opt.sig * opt.sig)
      + Real.sqrt ((opt.b / (opt.sig * opt.sig) - 0.5) ^ (2 : ℝ)
        + 2 * opt.r / (opt.sig * opt.sig)) = y1 := by
    simp only [y1, disc, bs, sig2, Real.rpow_two, pow_two]
  have e1 : (1.0 : ℝ) = 1 := by norm_num
  have e0 : (0.0 : ℝ) = 0 := by norm_num
  delta AmericanOption.Price AmericanOption.CallPriceAmerican
  simp only [hC, if_true, hy, e1, e0]
  constructor
  · intro h
    rw [if_pos h]
  · intro h
    rw [if_neg (not_lt.mpr h)]

/-- C4: perpetual American put. For any `optType` other than "C", with
`sig2 = sig^2`, `bs = b/sig2`, `disc = sqrt((bs - 0.5)^2 + 2r/sig2)` and
`y2 = 0.5 - bs - disc`, `Price(S)` is `K/(1-y2) * ((y2-1)/y2 * S/K)^y2` if
`y2 < 0` and exactly `0` if `y2 >= 0`. -/
theorem american_put_closed_form (opt : AmericanOption) (S : ℝ) (hP : opt.optType ≠ "C") :
    let sig2 := opt.sig ^ 2
    let bs := opt.b / sig2
    let disc := Real.sqrt ((bs - 0.5) ^ 2 + 2 * opt.r / sig2)
    let y2 := 0.5 - bs - disc
    (y2 < 0 → opt.Price S = opt.K / (1 - y2) * ((y2 - 1) / y2 * S / opt.K) ^ y2)
      ∧ (0 ≤ y2 → opt.Price S = 0) := by
  intro sig2 bs disc y2
  have hy : 0.5 - opt.b / (opt.sig * opt.sig)
      - Real.sqrt ((opt.b / (opt.sig * opt.sig) - 0.5) ^ (2 : ℝ)
        + 2 * opt.r / (opt.sig * opt.sig)) = y2 := by
    simp only [y2, disc, bs, sig2, Real.rpow_two, pow_two]
  have e1 : (1.0 : ℝ) = 1 := by norm_num
  have e0 : (0.0 : ℝ) = 0 := by norm_num
  delta AmericanOption.Price AmericanOption.PutPriceAmerican
  simp only [hP, if_false, hy, e1, e0]
  constructor
  · intro h
    rw [if_pos h]
  · intro h
    rw [if_neg (not_lt.mpr h)]

theorem american_call_closed_form_witness :
    sampleAmericanCall.optType = "C"
      ∧ (1 : ℝ) < 0.5 - 2 + Real.sqrt 22.25
      ∧ sampleAmericanCall.Price 110
          = 100 / ((0.5 - 2 + Real.sqrt 22.25) - 1)
            * (((0.5 - 2 + Real.sqrt 22.25) - 1) / (0.5 - 2 + Real.sqrt 22.25) * 110 / 100)
              ^ (0.5 - 2 + Real.sqrt 22.25) := by
  have hy : (1 : ℝ) < 0.5 - 2 + Real.sqrt 22.25 := by
    have h : (2.5 : ℝ) < Real.sqrt 22.25 := by
      rw [Real.lt_sqrt (by norm_num)]; norm_num
    linarith
  have h := (american_call_closed_form sampleAmericanCall 110 rfl).1
  have hb : sampleAmericanCall.b / sampleAmericanCall.sig ^ 2 = 2 := by
    show (0.02 : ℝ) / 0.1 ^ 2 = 2; norm_num
  have hd : ((2 : ℝ) - 0.5) ^ 2
      + 2 * sampleAmericanCall.r / sampleAmericanCall.sig ^ 2 = 22.25 := by
    show ((2 : ℝ) - 0.5) ^ 2 + 2 * 0.1 / 0.1 ^ 2 = 22.25; norm_num
  have hK : sampleAmericanCall.K = 100 := rfl
  simp only [hb, hd, hK] at h
  exact ⟨rfl, hy, h hy⟩

theorem american_put_closed_form_witness :
    sampleAmericanPut.optType ≠ "C"
      ∧ (0.5 : ℝ) - 2 - Real.sqrt 22.25 < 0
      ∧ sampleAmericanPut.Price 110
          = 100 / (1 - (0.5 - 2 - Real.sqrt 22.25))
            * (((0.5 - 2 - Real.sqrt 22.25) - 1) / (0.5 - 2 - Real.sqrt 22.25) * 110 / 100)
              ^ (0.5 - 2 - Real.sqrt 22.25) := by
  have hy : (0.5 : ℝ) - 2 - Real.sqrt 22.25 < 0 := by
    have h : (0 : ℝ) ≤ Real.sqrt 22.25 := Real.sqrt_nonneg _
    linarith
  have hne : sampleAmericanPut.optType ≠ "C" := by decide
  have h := (american_put_closed_form sampleAmericanPut 110 hne).1
  have hb : sampleAmericanPut.b / sampleAmericanPut.sig ^ 2 = 2 := by
    show (0.02 : ℝ) / 0.1 ^ 2 = 2; norm_num
  have hd : ((2 : ℝ) - 0.5) ^ 2
      + 2 * sampleAmericanPut.r / sampleAmericanPut.sig ^ 2 = 22.25 := by
    show ((2 : ℝ) - 0.5) ^ 2 + 2 * 0.1 / 0.1 ^ 2 = 22.25; norm_num
  have hK : sampleAmericanPut.K = 100 := rfl
  simp only [hb, hd, hK] at h
  exact ⟨hne, hy, h hy⟩

/-! ## Greeks that are read off the code -/

/-- C9: Theta equals the specified closed form. With `tmp = sig*sqrt(T)`,
`d1 = (ln(S/K) + (b + 0.5*sig^2)*T)/tmp` and `d2 = d1 - tmp`, `Theta(opt, S)` is
`-(S*sig*e^((b-r)T)*pdf(d1))/(2*sqrt(T)) - (b-r)*S*e^((b-r)T)*cdf(d1)
 - r*K*e^(-rT)*cdf(d2)` when `optType` is "C", and
`-(S*sig*e^((b-r)T)*pdf(d1))/(2*sqrt(T)) + (b-r)*S*e^((b-r)T)*cdf(-d1)
 + r*K*e^(-rT)*cdf(-d2)` otherwise. -/
theorem theta_closed_form (opt : EuropeanOption) (S : ℝ) :
    let tmp := opt.sig * Real.sqrt opt.T
    let d1 := (Real.log (S / opt.K) + (opt.b + 0.5 * opt.sig ^ 2) * opt.T) / tmp
    let d2 := d1 - tmp
    Greeks.Theta opt S =
      if opt.optType = "C" then
        -(S * opt.sig * Real.exp ((opt.b - opt.r) * opt.T) * N_pdf d1) / (2 * Real.sqrt opt.T)
          - (opt.b - opt.r) * S * Real.exp ((opt.b - opt.r) * opt.T) * N_cdf d1
          - opt.r * opt.K * Real.exp (-(opt.r * opt.T)) * N_cdf d2
      else
        -(S * opt.sig * Real.exp ((opt.b - opt.r) * opt.T) * N_pdf d1) / (2 * Real.sqrt opt.T)
          + (opt.b - opt.r) * S * Real.exp ((opt.b - opt.r) * opt.T) * N_cdf (-d1)
          + opt.r * opt.K * Real.exp (-(opt.r * opt.T)) * N_cdf (-d2) := by
  delta Greeks.Theta
  simp only [pow_two, mul_assoc, neg_mul]

/-- C10: Gamma symmetry. Two contracts that differ only in `optType` (one "C",
one "P") have the same `Gamma` at every spot. -/
theorem gamma_call_put_symmetry (opt : EuropeanOption) (S : ℝ) :
    Greeks.Gamma { opt with optType := "C" } S = Greeks.Gamma { opt with optType := "P" } S := by
  rfl

/-! ## Calculus of the Black-Scholes formula -/

/-- The density identity behind every Greek: with `tmp = sig*sqrt(T)` and
`d1 = (ln(S/K) + (b + 0.5*sig*sig)*T)/tmp`, the forward-weighted density at `d1`
equals the strike-weighted density at `d2 = d1 - tmp`. -/
theorem pdf_d1_d2 (S K r b sig T : ℝ) (hS : 0 < S) (hK : 0 < K) (hsig : 0 < sig)
    (hT : 0 < T) :
    S * Real.exp ((b - r) * T)
        * N_pdf ((Real.log (S / K) + (b + 0.5 * sig * sig) * T) / (sig * Real.sqrt T))
      = K * Real.exp (-r * T)
        * N_pdf ((Real.log (S / K) + (b + 0.5 * sig * sig) * T) / (sig * Real.sqrt T)
          - sig * Real.sqrt T) := by
  have h : (Real.log (S / K) + (b + 0.5 * sig * sig) * T) / (sig * Real.sqrt T)
        * (sig * Real.sqrt T)
      - sig * Real.sqrt T * (sig * Real.sqrt T) / 2 = Real.log (S / K) + b * T := by
    have hmul : Real.sqrt T * Real.sqrt T = T := Real.mul_self_sqrt hT.le
    have htmp : sig * Real.sqrt T ≠ 0 := (mul_pos hsig (Real.sqrt_pos.mpr hT)).ne.symm
    rw [div_mul_cancel₀ _ htmp]
    linear_combination (-(sig * sig) / 2) * hmul
  generalize (Real.log (S / K) + (b + 0.5 * sig * sig) * T) / (sig * Real.sqrt T) = d1 at h ⊢
  generalize sig * Real.sqrt T = tmp at h ⊢
  have hexp : Real.exp (-((d1 - tmp) * (d1 - tmp)) / 2)
      = Real.exp (-(d1 * d1) / 2) * (S / K) * Real.exp (b * T) := by
    have hsplit : -((d1 - tmp) * (d1 - tmp)) / 2
        = -(d1 * d1) / 2 + Real.log (S / K) + b * T := by
      have : -((d1 - tmp) * (d1 - tmp)) / 2
          = -(d1 * d1) / 2 + (d1 * tmp - tmp * tmp / 2) := by ring
      rw [this, h]; ring
    rw [hsplit, Real.exp_add, Real.exp_add, Real.exp_log (div_pos hS hK)]
  have hbr : Real.exp ((b - r) * T) = Real.exp (b * T) * Real.exp (-r * T) := by
    rw [← Real.exp_add]; congr 1; ring
  delta N_pdf
  rw [hexp, hbr]
  field_simp
  ring

/-- Derivative of a price of the shape `A * cdf(d1) - B * cdf(d2)` when all four
ingredients depend on one parameter. -/
theorem hasDerivAt_call_shape {A B d1 d2 : ℝ → ℝ} {A' B' d1' d2' x : ℝ}
    (hA : HasDerivAt A A' x) (hB : HasDerivAt B B' x)
    (hd1 : HasDerivAt d1 d1' x) (hd2 : HasDerivAt d2 d2' x) :
    HasDerivAt (fun y => A y * N_cdf (d1 y) - B y * N_cdf (d2 y))
      (A' * N_cdf (d1 x) + A x * (N_pdf (d1 x) * d1')
        - (B' * N_cdf (d2 x) + B x * (N_pdf (d2 x) * d2'))) x := by
  have h1 : HasDerivAt (fun y => N_cdf (d1 y)) (N_pdf (d1 x) * d1') x :=
    (N_cdf_hasDerivAt (d1 x)).comp x hd1
  have h2 : HasDerivAt (fun y => N_cdf (d2 y)) (N_pdf (d2 x) * d2') x :=
    (N_cdf_hasDerivAt (d2 x)).comp x hd2
  exact (hA.mul h1).sub (hB.mul h2)

/-- Derivative of `d1` with respect to the spot. -/
theorem hasDerivAt_d1_spot (K c tmp S : ℝ) (hS : 0 < S) (hK : 0 < K) :
    HasDerivAt (fun s => (Real.log (s / K) + c) / tmp) (1 / S / tmp) S := by
  have hlog : HasDerivAt (fun s => Real.log (s / K)) (1 / S) S := by
    have hdiv : HasDerivAt (fun s : ℝ => s / K) (1 / K) S := (hasDerivAt_id S).div_const K
    have hpos : 0 < S / K := div_pos hS hK
    have hexp : HasDerivAt Real.exp (S / K) (Real.log (S / K)) := by
      have h := Real.hasDerivAt_exp (Real.log (S / K))
      rwa [Real.exp_log hpos] at h
    have hlog0 : HasDerivAt Real.log (S / K)⁻¹ (S / K) := by
      refine HasDerivAt.of_local_left_inverse (Real.continuousAt_log hpos.ne.symm) hexp
        hpos.ne.symm ?_
      filter_upwards [lt_mem_nhds hpos] with y hy
      exact Real.exp_log hy
    have := hlog0.comp S hdiv
    convert this using 1
    field_simp
  exact (hlog.add_const c).div_const tmp

/-- Spot derivative of the price, call or put: it is `Delta`. -/
theorem hasDerivAt_price_spot (opt : EuropeanOption) (S : ℝ)
    (hS : 0 < S) (hK : 0 < opt.K) (hsig : 0 < opt.sig) (hT : 0 < opt.T) :
    HasDerivAt (fun s => opt.Price s) (Greeks.Delta opt S) S := by
  have hA : HasDerivAt (fun s : ℝ => s * Real.exp ((opt.b - opt.r) * opt.T))
      (Real.exp ((opt.b - opt.r) * opt.T)) S := by
    simpa using (hasDerivAt_id S).mul_const (Real.exp ((opt.b - opt.r) * opt.T))
  have hB : HasDerivAt (fun _ : ℝ => opt.K * Real.exp (-opt.r * opt.T)) 0 S :=
    hasDerivAt_const S _
  have hd1 := hasDerivAt_d1_spot opt.K ((opt.b + 0.5 * opt.sig * opt.sig) * opt.T)
    (opt.sig * Real.sqrt opt.T) S hS hK
  have hd2 := hd1.sub_const (opt.sig * Real.sqrt opt.T)
  have hpdf := pdf_d1_d2 S opt.K opt.r opt.b opt.sig opt.T hS hK hsig hT
  have hcall : HasDerivAt (fun s => opt.CallPrice s)
      (Real.exp ((opt.b - opt.r) * opt.T)
        * N_cdf ((Real.log (S / opt.K) + (opt.b + 0.5 * opt.sig * opt.sig) * opt.T)
            / (opt.sig * Real.sqrt opt.T))) S := by
    refine (hasDerivAt_call_shape hA hB hd1 hd2).congr_deriv ?_
    simp only [zero_mul, zero_add]
    linear_combination (1 / S / (opt.sig * Real.sqrt opt.T)) * hpdf
  by_cases hC : opt.optType = "C"
  · have hfun : (fun s => opt.Price s) = fun s => opt.CallPrice s := by
      funext s; delta EuropeanOption.Price; simp only [hC, if_true]
    rw [hfun]
    refine hcall.congr_deriv ?_
    delta Greeks.Delta; simp only [hC, if_true]
  · have hfun : (fun s => opt.Price s) = fun s => opt.CallPrice s
        - (s * Real.exp ((opt.b - opt.r) * opt.T) - opt.K * Real.exp (-opt.r * opt.T)) := by
      funext s; delta EuropeanOption.Price; simp only [hC, if_false]
      have := opt.call_sub_put s; linarith
    rw [hfun]
    refine (hcall.sub (hA.sub hB)).congr_deriv ?_
    delta Greeks.Delta; simp only [hC, if_false]
    ring

/-- Maturity derivative of the price, call or put: minus Theta. -/
theorem hasDerivAt_price_maturity (opt : EuropeanOption) (S : ℝ)
    (hS : 0 < S) (hK : 0 < opt.K) (hsig : 0 < opt.sig) (hT : 0 < opt.T) :
    HasDerivAt (fun t => EuropeanOption.Price { opt with T := t } S)
      (-(Greeks.Theta opt S)) opt.T := by
  have hsq : 0 < Real.sqrt opt.T := Real.sqrt_pos.mpr hT
  have hA : HasDerivAt (fun t : ℝ => S * Real.exp ((opt.b - opt.r) * t))
      (S * (Real.exp ((opt.b - opt.r) * opt.T) * (opt.b - opt.r))) opt.T := by
    have h1 : HasDerivAt (fun t : ℝ => (opt.b - opt.r) * t) (opt.b - opt.r) opt.T := by
      simpa using (hasDerivAt_id opt.T).const_mul (opt.b - opt.r)
    exact (h1.exp).const_mul S
  have hB : HasDerivAt (fun t : ℝ => opt.K * Real.exp (-opt.r * t))
      (opt.K * (Real.exp (-opt.r * opt.T) * (-opt.r))) opt.T := by
    have h1 : HasDerivAt (fun t : ℝ => -opt.r * t) (-opt.r) opt.T := by
      simpa using (hasDerivAt_id opt.T).const_mul (-opt.r)
    exact (h1.exp).const_mul opt.K
  have hsqrt : HasDerivAt Real.sqrt (1 / (2 * Real.sqrt opt.T)) opt.T := by
    have hmul : HasDerivAt (fun y : ℝ => y * y) (2 * Real.sqrt opt.T) (Real.sqrt opt.T) := by
      have h := (hasDerivAt_id (Real.sqrt opt.T)).mul (hasDerivAt_id (Real.sqrt opt.T))
      refine h.congr_deriv ?_
      simp only [id, one_mul, mul_one]
      ring
    have h := HasDerivAt.of_local_left_inverse Real.continuous_sqrt.continuousAt hmul
      (mul_pos two_pos hsq).ne.symm (by
        filter_upwards [lt_mem_nhds hT] with y hy
        exact Real.mul_self_sqrt hy.le)
    rwa [← one_div] at h
  have htmp : HasDerivAt (fun t : ℝ => opt.sig * Real.sqrt t)
      (opt.sig * (1 / (2 * Real.sqrt opt.T))) opt.T :=
    hsqrt.const_mul opt.sig
  have hnum : DifferentiableAt ℝ (fun t : ℝ =>
      Real.log (S / opt.K) + (opt.b + 0.5 * opt.sig * opt.sig) * t) opt.T := by fun_prop
  have hdiff : DifferentiableAt ℝ (fun t : ℝ =>
      (Real.log (S / opt.K) + (opt.b + 0.5 * opt.sig * opt.sig) * t)
        / (opt.sig * Real.sqrt t)) opt.T :=
    DifferentiableAt.div hnum htmp.differentiableAt (mul_pos hsig hsq).ne.symm
  obtain ⟨d1', hd1⟩ : ∃ d, HasDerivAt (fun t : ℝ =>
      (Real.log (S / opt.K) + (opt.b + 0.5 * opt.sig * opt.sig) * t)
        / (opt.sig * Real.sqrt t)) d opt.T :=
    ⟨_, hdiff.hasDerivAt⟩
  have hd2 := hd1.sub htmp
  have hpdf := pdf_d1_d2 S opt.K opt.r opt.b opt.sig opt.T hS hK hsig hT
  have hcall : HasDerivAt (fun t => EuropeanOption.CallPrice { opt with T := t } S)
      (-(Greeks.Theta { opt with optType := "C" } S)) opt.T := by
    refine (hasDerivAt_call_shape hA hB hd1 hd2).congr_deriv ?_
    delta Greeks.Theta
    simp only [if_true]
    linear_combination (d1' - opt.sig * (1 / (2 * Real.sqrt opt.T))) * hpdf
  by_cases hC : opt.optType = "C"
  · have hfun : (fun t => EuropeanOption.Price { opt with T := t } S)
        = fun t => EuropeanOption.CallPrice { opt with T := t } S := by
      funext t; delta EuropeanOption.Price; simp only [hC, if_true]
    rw [hfun]
    refine hcall.congr_deriv ?_
    delta Greeks.Theta; simp only [hC, if_true]
  · have hfun : (fun t => EuropeanOption.Price { opt with T := t } S)
        = fun t => EuropeanOption.CallPrice { opt with T := t } S
          - (S * Real.exp ((opt.b - opt.r) * t) - opt.K * Real.exp (-opt.r * t)) := by
      funext t; delta EuropeanOption.Price; simp only [hC, if_false]
      have := EuropeanOption.call_sub_put { opt with T := t } S
      simp only [] at this
      linarith
    rw [hfun]
    refine (hcall.sub (hA.sub hB)).congr_deriv ?_
    delta Greeks.Theta
    simp only [hC, if_true, if_false, N_cdf_neg]
    ring

/-! ## Greeks as derivatives of the European price -/

/-- C5: Delta is the spot derivative of the European price. For a call or a put
with `K > 0`, `sig > 0`, `T > 0` and every `S > 0`, the function `s -> Price(s)`
is differentiable at `S` and its derivative is `Greeks::Delta(opt, S)`. -/
theorem delta_is_spot_derivative (opt : EuropeanOption) (S : ℝ)
    (hS : 0 < S) (hK : 0 < opt.K) (hsig : 0 < opt.sig) (hT : 0 < opt.T) :
    DifferentiableAt ℝ (fun s => opt.Price s) S
      ∧ deriv (fun s => opt.Price s) S = Greeks.Delta opt S :=
  ⟨(hasDerivAt_price_spot opt S hS hK hsig hT).differentiableAt,
    (hasDerivAt_price_spot opt S hS hK hsig hT).deriv⟩

theorem delta_is_spot_derivative_witness :
    (0 : ℝ) < 100 ∧ 0 < samplePut.K ∧ 0 < samplePut.sig ∧ 0 < samplePut.T
      ∧ DifferentiableAt ℝ (fun s => samplePut.Price s) 100
      ∧ deriv (fun s => samplePut.Price s) 100 = Greeks.Delta samplePut 100 :=
  have hK : 0 < samplePut.K := by show (0 : ℝ) < 100; norm_num
  have hsig : 0 < samplePut.sig := by show (0 : ℝ) < 0.2; norm_num
  have hT : 0 < samplePut.T := by show (0 : ℝ) < 1; norm_num
  ⟨by norm_num, hK, hsig, hT, delta_is_spot_derivative samplePut 100 (by norm_num) hK hsig hT⟩

/-- C6 (amended): Theta is minus the maturity derivative. For a call or a put
with `K > 0`, `sig > 0`, `T > 0` and every `S > 0`, `Price(S)` is differentiable
in the time-to-maturity field `T`, the other fields held fixed, and
`Greeks::Theta(opt, S)` equals the negative of that partial derivative. -/
theorem theta_is_minus_maturity_derivative (opt : EuropeanOption) (S : ℝ)
    (hS : 0 < S) (hK : 0 < opt.K) (hsig : 0 < opt.sig) (hT : 0 < opt.T) :
    DifferentiableAt ℝ (fun t => EuropeanOption.Price { opt with T := t } S) opt.T
      ∧ Greeks.Theta opt S
        = -deriv (fun t => EuropeanOption.Price { opt with T := t } S) opt.T := by
  have h := hasDerivAt_price_maturity opt S hS hK hsig hT
  exact ⟨h.differentiableAt, by rw [h.deriv, neg_neg]⟩

theorem theta_is_minus_maturity_derivative_witness :
    (0 : ℝ) < 100 ∧ 0 < sampleCall.K ∧ 0 < sampleCall.sig ∧ 0 < sampleCall.T
      ∧ DifferentiableAt ℝ (fun t => EuropeanOption.Price { sampleCall with T := t } 100)
          sampleCall.T
      ∧ Greeks.Theta sampleCall 100
        = -deriv (fun t => EuropeanOption.Price { sampleCall with T := t } 100) sampleCall.T :=
  have hK : 0 < sampleCall.K := by show (0 : ℝ) < 100; norm_num
  have hsig : 0 < sampleCall.sig := by show (0 : ℝ) < 0.2; norm_num
  have hT : 0 < sampleCall.T := by show (0 : ℝ) < 1; norm_num
  ⟨by norm_num, hK, hsig, hT,
    theta_is_minus_maturity_derivative sampleCall 100 (by norm_num) hK hsig hT⟩

/-- C6 as stated fails: at the unit call (`r = b = 0`, `sig = K = T = 1`) and
spot `1`, `Theta` is not the derivative of the price with respect to `T`. -/
theorem theta_is_not_maturity_derivative :
    Greeks.Theta unitCall 1
      ≠ deriv (fun t => EuropeanOption.Price { unitCall with T := t } 1) unitCall.T := by
  have hK : 0 < unitCall.K := by show (0 : ℝ) < 1; norm_num
  have hsig : 0 < unitCall.sig := by show (0 : ℝ) < 1; norm_num
  have hT : 0 < unitCall.T := by show (0 : ℝ) < 1; norm_num
  have h := hasDerivAt_price_maturity unitCall 1 (by norm_num) hK hsig hT
  rw [h.deriv]
  have hval : Greeks.Theta unitCall 1
      = -(N_pdf ((Real.log (1 / 1) + (0 + 0.5 * 1 * 1) * 1) / (1 * Real.sqrt 1)))
          / (2 * Real.sqrt 1) := by
    delta Greeks.Theta unitCall
    simp
  have hp : 0 < N_pdf ((Real.log (1 / 1) + (0 + 0.5 * 1 * 1) * 1) / (1 * Real.sqrt 1)) := by
    delta N_pdf; positivity
  have hs : (0 : ℝ) < 2 * Real.sqrt 1 := by simp
  have hneg : Greeks.Theta unitCall 1 < 0 := by
    rw [hval]
    exact div_neg_of_neg_of_pos (neg_neg_of_pos hp) hs
  intro heq
  linarith

/-- C7 (amended): Rho is the rate derivative along `b - r = const`. For a call
or a put with `K > 0`, `sig > 0`, `T > 0` and every `S > 0`, `Greeks::Rho(opt, S)`
equals the derivative of `Price(S)` with respect to the risk-free-rate field `r`
when the cost of carry `b` moves one-for-one with `r` (the carry spread `b - r`
and the fields `sig`, `K`, `T` held fixed). -/
theorem rho_is_rate_derivative_tied_carry (opt : EuropeanOption) (S : ℝ)
    (hS : 0 < S) (hK : 0 < opt.K) (hsig : 0 < opt.sig) (hT : 0 < opt.T) :
    DifferentiableAt ℝ
        (fun x => EuropeanOption.Price { opt with r := x, b := opt.b + (x - opt.r) } S) opt.r
      ∧ deriv (fun x => EuropeanOption.Price { opt with r := x, b := opt.b + (x - opt.r) } S)
          opt.r = Greeks.Rho opt S := by
  have hAfun : (fun x : ℝ => S * Real.exp ((opt.b + (x - opt.r) - x) * opt.T))
      = fun _ => S * Real.exp ((opt.b - opt.r) * opt.T) := by
    funext x; congr 2; ring
  have hA : HasDerivAt (fun x : ℝ => S * Real.exp ((opt.b + (x - opt.r) - x) * opt.T))
      0 opt.r := by
    rw [hAfun]; exact hasDerivAt_const _ _
  have hB : HasDerivAt (fun x : ℝ => opt.K * Real.exp (-x * opt.T))
      (opt.K * (Real.exp (-opt.r * opt.T) * (-opt.T))) opt.r := by
    have h1 : HasDerivAt (fun x : ℝ => -x * opt.T) (-opt.T) opt.r := by
      simpa using ((hasDerivAt_id opt.r).neg).mul_const opt.T
    exact (h1.exp).const_mul opt.K
  have hdiff : DifferentiableAt ℝ (fun x : ℝ =>
      (Real.log (S / opt.K) + (opt.b + (x - opt.r) + 0.5 * opt.sig * opt.sig) * opt.T)
        / (opt.sig * Real.sqrt opt.T)) opt.r := by fun_prop
  obtain ⟨d1', hd1⟩ : ∃ d, HasDerivAt (fun x : ℝ =>
      (Real.log (S / opt.K) + (opt.b + (x - opt.r) + 0.5 * opt.sig * opt.sig) * opt.T)
        / (opt.sig * Real.sqrt opt.T)) d opt.r :=
    ⟨_, hdiff.hasDerivAt⟩
  have hd2 := hd1.sub_const (opt.sig * Real.sqrt opt.T)
  have hpdf := pdf_d1_d2 S opt.K opt.r opt.b opt.sig opt.T hS hK hsig hT
  have hcall : HasDerivAt
      (fun x => EuropeanOption.CallPrice { opt with r := x, b := opt.b + (x - opt.r) } S)
      (Greeks.Rho { opt with optType := "C" } S) opt.r := by
    refine (hasDerivAt_call_shape hA hB hd1 hd2).congr_deriv ?_
    delta Greeks.Rho
    simp only [if_true, sub_self, add_zero, zero_mul, zero_add]
    linear_combination d1' * hpdf
  have hprice : HasDerivAt
      (fun x => EuropeanOption.Price { opt with r := x, b := opt.b + (x - opt.r) } S)
      (Greeks.Rho opt S) opt.r := by
    by_cases hC : opt.optType = "C"
    · have hfun : (fun x => EuropeanOption.Price
            { opt with r := x, b := opt.b + (x - opt.r) } S)
          = fun x => EuropeanOption.CallPrice
              { opt with r := x, b := opt.b + (x - opt.r) } S := by
        funext x; delta EuropeanOption.Price; simp only [hC, if_true]
      rw [hfun]
      refine hcall.congr_deriv ?_
      delta Greeks.Rho; simp only [hC, if_true]
    · have hfun : (fun x => EuropeanOption.Price
            { opt with r := x, b := opt.b + (x - opt.r) } S)
          = fun x => EuropeanOption.CallPrice { opt with r := x, b := opt.b + (x - opt.r) } S
            - (S * Real.exp ((opt.b + (x - opt.r) - x) * opt.T)
              - opt.K * Real.exp (-x * opt.T)) := by
        funext x; delta EuropeanOption.Price; simp only [hC, if_false]
        have := EuropeanOption.call_sub_put { opt with r := x, b := opt.b + (x - opt.r) } S
        simp only [] at this
        linarith
      rw [hfun]
      refine (hcall.sub (hA.sub hB)).congr_deriv ?_
      delta Greeks.Rho
      simp only [hC, if_true, if_false, N_cdf_neg]
      ring
  exact ⟨hprice.differentiableAt, hprice.deriv⟩

theorem rho_is_rate_derivative_tied_carry_witness :
    (0 : ℝ) < 100 ∧ 0 < samplePut.K ∧ 0 < samplePut.sig ∧ 0 < samplePut.T
      ∧ DifferentiableAt ℝ
          (fun x => EuropeanOption.Price
            { samplePut with r := x, b := samplePut.b + (x - samplePut.r) } 100) samplePut.r
      ∧ deriv (fun x => EuropeanOption.Price
            { samplePut with r := x, b := samplePut.b + (x - samplePut.r) } 100) samplePut.r
          = Greeks.Rho samplePut 100 :=
  have hK : 0 < samplePut.K := by show (0 : ℝ) < 100; norm_num
  have hsig : 0 < samplePut.sig := by show (0 : ℝ) < 0.2; norm_num
  have hT : 0 < samplePut.T := by show (0 : ℝ) < 1; norm_num
  ⟨by norm_num, hK, hsig, hT,
    rho_is_rate_derivative_tied_carry samplePut 100 (by norm_num) hK hsig hT⟩

/-- C7 as stated fails: at the unit call (`r = b = 0`, `sig = K = T = 1`) and
spot `1`, `Rho` is not the derivative of the price with respect to `r` when `b`
is held fixed. -/
theorem rho_is_not_rate_derivative_fixed_carry :
    Greeks.Rho unitCall 1
      ≠ deriv (fun x => EuropeanOption.Price { unitCall with r := x } 1) unitCall.r := by
  -- the distribution function is at least one half at `d1 = 0.5`
  have hd1val : (Real.log (1 / unitCall.K)
        + (unitCall.b + 0.5 * unitCall.sig * unitCall.sig) * unitCall.T)
      / (unitCall.sig * Real.sqrt unitCall.T) = 0.5 := by
    show (Real.log (1 / 1) + ((0 : ℝ) + 0.5 * 1 * 1) * 1) / (1 * Real.sqrt 1) = 0.5
    rw [Real.sqrt_one, div_one, Real.log_one]
    norm_num
  have hNpos : 0 < N_cdf ((Real.log (1 / unitCall.K)
        + (unitCall.b + 0.5 * unitCall.sig * unitCall.sig) * unitCall.T)
      / (unitCall.sig * Real.sqrt unitCall.T)) := by
    rw [hd1val]
    have h := (N_cdf_enclosure 0.5 (1 / 2) 1 (by norm_num) (by norm_num) (by norm_num)
      (by norm_num) (by norm_num) (by norm_num)).1
    linarith
  -- derivative of the call price in `r` with `b` held fixed
  have hA : HasDerivAt (fun x : ℝ => 1 * Real.exp ((unitCall.b - x) * unitCall.T))
      (1 * (Real.exp ((unitCall.b - unitCall.r) * unitCall.T) * (-unitCall.T))) unitCall.r := by
    have h1 : HasDerivAt (fun x : ℝ => (unitCall.b - x) * unitCall.T) (-unitCall.T)
        unitCall.r := by
      simpa using ((hasDerivAt_id unitCall.r).const_sub unitCall.b).mul_const unitCall.T
    exact (h1.exp).const_mul 1
  have hB : HasDerivAt (fun x : ℝ => unitCall.K * Real.exp (-x * unitCall.T))
      (unitCall.K * (Real.exp (-unitCall.r * unitCall.T) * (-unitCall.T))) unitCall.r := by
    have h1 : HasDerivAt (fun x : ℝ => -x * unitCall.T) (-unitCall.T) unitCall.r := by
      simpa using ((hasDerivAt_id unitCall.r).neg).mul_const unitCall.T
    exact (h1.exp).const_mul unitCall.K
  have hd1 : HasDerivAt (fun _ : ℝ =>
      (Real.log (1 / unitCall.K) + (unitCall.b + 0.5 * unitCall.sig * unitCall.sig) * unitCall.T)
        / (unitCall.sig * Real.sqrt unitCall.T)) 0 unitCall.r := hasDerivAt_const _ _
  have hd2 := hd1.sub_const (unitCall.sig * Real.sqrt unitCall.T)
  have hfixed : HasDerivAt (fun x => EuropeanOption.Price { unitCall with r := x } 1)
      (Greeks.Rho unitCall 1
        - unitCall.T * (1 * Real.exp ((unitCall.b - unitCall.r) * unitCall.T)
          * N_cdf ((Real.log (1 / unitCall.K)
              + (unitCall.b + 0.5 * unitCall.sig * unitCall.sig) * unitCall.T)
            / (unitCall.sig * Real.sqrt unitCall.T)))) unitCall.r := by
    refine (hasDerivAt_call_shape hA hB hd1 hd2).congr_deriv ?_
    delta Greeks.Rho
    simp only [show unitCall.optType = "C" from rfl, if_true]
    ring
  rw [hfixed.deriv]
  have hpos : 0 < unitCall.T * (1 * Real.exp ((unitCall.b - unitCall.r) * unitCall.T)
      * N_cdf ((Real.log (1 / unitCall.K)
          + (unitCall.b + 0.5 * unitCall.sig * unitCall.sig) * unitCall.T)
        / (unitCall.sig * Real.sqrt unitCall.T))) :=
    mul_pos (by show (0 : ℝ) < 1; norm_num)
      (mul_pos (mul_pos one_pos (Real.exp_pos _)) hNpos)
  intro heq
  linarith

/-- C8: Vega is the volatility derivative of the European price. For a call or
a put with `K > 0`, `sig > 0`, `T > 0` and every `S > 0`, `Price(S)` is
differentiable in the volatility field `sig`, the other fields held fixed, and
the partial derivative is `Greeks::Vega(opt, S)`. -/
theorem vega_is_volatility_derivative (opt : EuropeanOption) (S : ℝ)
    (hS : 0 < S) (hK : 0 < opt.K) (hsig : 0 < opt.sig) (hT : 0 < opt.T) :
    DifferentiableAt ℝ (fun v => EuropeanOption.Price { opt with sig := v } S) opt.sig
      ∧ deriv (fun v => EuropeanOption.Price { opt with sig := v } S) opt.sig
        = Greeks.Vega opt S := by
  have hsq : 0 < Real.sqrt opt.T := Real.sqrt_pos.mpr hT
  have hA : HasDerivAt (fun _ : ℝ => S * Real.exp ((opt.b - opt.r) * opt.T)) 0 opt.sig :=
    hasDerivAt_const _ _
  have hB : HasDerivAt (fun _ : ℝ => opt.K * Real.exp (-opt.r * opt.T)) 0 opt.sig :=
    hasDerivAt_const _ _
  have htmp : HasDerivAt (fun v : ℝ => v * Real.sqrt opt.T) (Real.sqrt opt.T) opt.sig := by
    simpa using (hasDerivAt_id opt.sig).mul_const (Real.sqrt opt.T)
  have hdiff : DifferentiableAt ℝ (fun v : ℝ =>
      (Real.log (S / opt.K) + (opt.b + 0.5 * v * v) * opt.T) / (v * Real.sqrt opt.T)) opt.sig :=
    DifferentiableAt.div (by fun_prop) (by fun_prop) (mul_pos hsig hsq).ne.symm
  obtain ⟨d1', hd1⟩ : ∃ d, HasDerivAt (fun v : ℝ =>
      (Real.log (S / opt.K) + (opt.b + 0.5 * v * v) * opt.T) / (v * Real.sqrt opt.T)) d opt.sig :=
    ⟨_, hdiff.hasDerivAt⟩
  have hd2 := hd1.sub htmp
  have hpdf := pdf_d1_d2 S opt.K opt.r opt.b opt.sig opt.T hS hK hsig hT
  have hcall : HasDerivAt (fun v => EuropeanOption.CallPrice { opt with sig := v } S)
      (Greeks.Vega opt S) opt.sig := by
    refine (hasDerivAt_call_shape hA hB hd1 hd2).congr_deriv ?_
    delta Greeks.Vega
    simp only [zero_mul, zero_add]
    linear_combination (d1' - Real.sqrt opt.T) * hpdf
  have hprice : HasDerivAt (fun v => EuropeanOption.Price { opt with sig := v } S)
      (Greeks.Vega opt S) opt.sig := by
    by_cases hC : opt.optType = "C"
    · have hfun : (fun v => EuropeanOption.Price { opt with sig := v } S)
          = fun v => EuropeanOption.CallPrice { opt with sig := v } S := by
        funext v; delta EuropeanOption.Price; simp only [hC, if_true]
      rw [hfun]; exact hcall
    · have hfun : (fun v => EuropeanOption.Price { opt with sig := v } S)
          = fun v => EuropeanOption.CallPrice { opt with sig := v } S
            - (S * Real.exp ((opt.b - opt.r) * opt.T)
              - opt.K * Real.exp (-opt.r * opt.T)) := by
        funext v; delta EuropeanOption.Price; simp only [hC, if_false]
        have := EuropeanOption.call_sub_put { opt with sig := v } S
        simp only [] at this
        linarith
      rw [hfun]
      exact hcall.sub_const _
  exact ⟨hprice.differentiableAt, hprice.deriv⟩

theorem vega_is_volatility_derivative_witness :
    (0 : ℝ) < 100 ∧ 0 < sampleCall.K ∧ 0 < sampleCall.sig ∧ 0 < sampleCall.T
      ∧ DifferentiableAt ℝ (fun v => EuropeanOption.Price { sampleCall with sig := v } 100)
          sampleCall.sig
      ∧ deriv (fun v => EuropeanOption.Price { sampleCall with sig := v } 100) sampleCall.sig
        = Greeks.Vega sampleCall 100 :=
  have hK : 0 < sampleCall.K := by show (0 : ℝ) < 100; norm_num
  have hsig : 0 < sampleCall.sig := by show (0 : ℝ) < 0.2; norm_num
  have hT : 0 < sampleCall.T := by show (0 : ℝ) < 1; norm_num
  ⟨by norm_num, hK, hsig, hT,
    vega_is_volatility_derivative sampleCall 100 (by norm_num) hK hsig hT⟩

/-! ## Finite differences and the vector pricer -/

/-- C13: the finite-difference Greeks are central difference quotients of the
contract variant's own `Price`. For a European object `Price` is the
Black-Scholes formula, for a Perpetual American object it is the perpetual
formula; in both cases `DeltaFD = (Price(S+h) - Price(S-h))/(2h)` and
`GammaFD = (Price(S+h) - 2*Price(S) + Price(S-h))/h^2`. -/
theorem fd_greeks_are_central_differences (e : EuropeanOption) (a : AmericanOption)
    (S h : ℝ) :
    (Greeks.DeltaFD (OptionRef.european e) S h
        = (e.Price (S + h) - e.Price (S - h)) / (2 * h)
      ∧ Greeks.GammaFD (OptionRef.european e) S h
        = (e.Price (S + h) - 2 * e.Price S + e.Price (S - h)) / h ^ 2)
    ∧ (Greeks.DeltaFD (OptionRef.american a) S h
        = (a.Price (S + h) - a.Price (S - h)) / (2 * h)
      ∧ Greeks.GammaFD (OptionRef.american a) S h
        = (a.Price (S + h) - 2 * a.Price S + a.Price (S - h)) / h ^ 2) := by
  have e2 : (2.0 : ℝ) = 2 := by norm_num
  have hE : ∀ s, (OptionRef.european e).Price s = e.Price s := fun _ => rfl
  have hA : ∀ s, (OptionRef.american a).Price s = a.Price s := fun _ => rfl
  delta Greeks.DeltaFD Greeks.GammaFD
  simp only [hE, hA, e2, pow_two, and_self]

/-- The loop of `Vector` is the map of the selected quantity over the spots. -/
theorem MatrixPricer.Vector_eq_map (opt : OptionRef) (spots : List ℝ) (output : OutputType)
    (h : ℝ) :
    MatrixPricer.Vector opt spots output h
      = spots.map (fun S =>
          match output with
          | OutputType.Price => opt.Price S
          | OutputType.Delta => Greeks.Delta opt.base S
          | OutputType.Gamma => Greeks.Gamma opt.base S
          | OutputType.Vega => Greeks.Vega opt.base S
          | OutputType.Theta => Greeks.Theta opt.base S
          | OutputType.Rho => Greeks.Rho opt.base S
          | OutputType.DeltaFD => Greeks.DeltaFD opt S h
          | OutputType.GammaFD => Greeks.GammaFD opt S h) := by
  have hfold : ∀ (f : ℝ → ℝ) (l acc : List ℝ),
      l.foldl (fun result S => result ++ [f S]) acc = acc ++ l.map f := by
    intro f l
    induction l with
    | nil => intro acc; simp
    | cons x xs ih => intro acc; simp [ih]
  cases output <;>
    (delta MatrixPricer.Vector; simp only [hfold, List.nil_append])

/-- C14: `Vector` is an order-preserving map. The result has the length of the
spot sequence, its `i`-th element is the selected quantity at `spots[i]` (the
variant's `Price`, an analytic Greek, or a finite difference with step `h`), and
for the six kinds other than `DeltaFD` and `GammaFD` it does not depend on `h`. -/
theorem vector_is_order_preserving_map (opt : OptionRef) (spots : List ℝ)
    (output : OutputType) (h h2 : ℝ) :
    (MatrixPricer.Vector opt spots output h).length = spots.length
      ∧ (∀ i : ℕ, (MatrixPricer.Vector opt spots output h)[i]?
          = (spots[i]?).map (fun S =>
              match output with
              | OutputType.Price => opt.Price S
              | OutputType.Delta => Greeks.Delta opt.base S
              | OutputType.Gamma => Greeks.Gamma opt.base S
              | OutputType.Vega => Greeks.Vega opt.base S
              | OutputType.Theta => Greeks.Theta opt.base S
              | OutputType.Rho => Greeks.Rho opt.base S
              | OutputType.DeltaFD => Greeks.DeltaFD opt S h
              | OutputType.GammaFD => Greeks.GammaFD opt S h))
      ∧ MatrixPricer.Vector opt spots OutputType.Price h
          = MatrixPricer.Vector opt spots OutputType.Price h2
      ∧ MatrixPricer.Vector opt spots OutputType.Delta h
          = MatrixPricer.Vector opt spots OutputType.Delta h2
      ∧ MatrixPricer.Vector opt spots OutputType.Gamma h
          = MatrixPricer.Vector opt spots OutputType.Gamma h2
      ∧ MatrixPricer.Vector opt spots OutputType.Vega h
          = MatrixPricer.Vector opt spots OutputType.Vega h2
      ∧ MatrixPricer.Vector opt spots OutputType.Theta h
          = MatrixPricer.Vector opt spots OutputType.Theta h2
      ∧ MatrixPricer.Vector opt spots OutputType.Rho h
          = MatrixPricer.Vector opt spots OutputType.Rho h2 := by
  refine ⟨?_, ?_, ?_, ?_, ?_, ?_, ?_, ?_⟩
  · rw [MatrixPricer.Vector_eq_map, List.length_map]
  · intro i
    rw [MatrixPricer.Vector_eq_map, List.getElem?_map]
  all_goals (simp only [MatrixPricer.Vector_eq_map])

/-! ## Parity check -/

/-- C18: `CheckParity` decides the plain parity relation. It returns `true`
exactly when `|(C - P) - (S - K*e^(-rT))| < tol`, and `tol` is `1e-6` when the
argument is left out. -/
theorem checkParity_iff (C P S K r T tol : ℝ) :
    (CheckParity C P S K r T tol = true ↔ |(C - P) - (S - K * Real.exp (-(r * T)))| < tol)
      ∧ CheckParity C P S K r T = CheckParity C P S K r T 1e-6 := by
  constructor
  · delta CheckParity
    simp
  · rfl

/-! ## The matrix pricer -/

theorem OptionRef.modify_modify (f g : EuropeanOption → EuropeanOption) (opt : OptionRef) :
    (opt.modify g).modify f = opt.modify (fun e => f (g e)) := by
  cases opt <;> rfl

theorem OptionRef.base_modify (f : EuropeanOption → EuropeanOption) (opt : OptionRef) :
    (opt.modify f).base = f opt.base := by
  cases opt <;> rfl

/-- On a row with at least four values the assignments succeed and bind the
contract to the row. -/
theorem MatrixPricer.assignRow_eq (opt : OptionRef) (p : List ℝ) (hp : 4 ≤ p.length) :
    MatrixPricer.assignRow opt p = some (rowContract opt p) := by
  match p, hp with
  | [a, b, c, d], _ =>
    delta MatrixPricer.assignRow rowContract
    simp [OptionRef.modify_modify, OptionRef.base_modify]
  | a :: b :: c :: d :: e :: rest, _ =>
    delta MatrixPricer.assignRow rowContract
    simp [OptionRef.modify_modify, OptionRef.base_modify]

/-- Binding to a row overwrites whatever an earlier row had bound. -/
theorem rowContract_rowContract (opt : OptionRef) (q p : List ℝ) :
    rowContract (rowContract opt q) p = rowContract opt p := by
  delta rowContract
  simp [OptionRef.modify_modify]

/-- `Matrix` on a table of well-formed rows: the surface is the row-wise
`Vector`, and the contract left behind is the initial one on an empty table and
otherwise the initial one bound to the last row. -/
theorem MatrixPricer.Matrix_eq (opt : OptionRef) (rows : List (List ℝ)) (spots : List ℝ)
    (output : OutputType) (h : ℝ) (hrows : ∀ p ∈ rows, 4 ≤ p.length) :
    MatrixPricer.Matrix opt rows spots output h
      = some (rows.map (fun p => MatrixPricer.Vector (rowContract opt p) spots output h),
          match rows.getLast? with
          | none => opt
          | some p => rowContract opt p) := by
  have hloop : ∀ (rows : List (List ℝ)), (∀ p ∈ rows, 4 ≤ p.length) →
      ∀ (acc : List (List ℝ)) (cur : OptionRef),
      rows.foldlM (fun st p => (MatrixPricer.assignRow st.2 p).bind fun o =>
          some (st.1 ++ [MatrixPricer.Vector o spots output h], o)) (acc, cur)
        = some (acc ++ rows.map (fun p => MatrixPricer.Vector (rowContract cur p) spots output h),
            match rows.getLast? with
            | none => cur
            | some p => rowContract cur p) := by
    intro rows
    induction rows with
    | nil => intro _ acc cur; simp
    | cons p ps ih =>
      intro hall acc cur
      have hp : 4 ≤ p.length := hall p (List.mem_cons_self _ _)
      have hps : ∀ q ∈ ps, 4 ≤ q.length := fun q hq => hall q (List.mem_cons_of_mem _ hq)
      rw [List.foldlM_cons, MatrixPricer.assignRow_eq cur p hp]
      simp only [Option.some_bind, Option.bind_eq_bind]
      rw [ih hps]
      simp only [rowContract_rowContract, List.map_cons, List.append_assoc,
        List.singleton_append]
      cases ps with
      | nil => simp
      | cons q qs =>
        simp only [List.getLast?_cons_cons]
        cases h2 : (q :: qs).getLast? with
        | none => simp at h2
        | some l => simp
  have hmain := hloop rows hrows [] opt
  simp only [List.nil_append] at hmain
  exact hmain

/-- The data members of a contract bound to a row of at least four values. -/
theorem rowContract_fields (opt : OptionRef) (p : List ℝ) (hp : 4 ≤ p.length) :
    p[0]? = some (rowContract opt p).base.T
      ∧ p[1]? = some (rowContract opt p).base.K
      ∧ p[2]? = some (rowContract opt p).base.sig
      ∧ p[3]? = some (rowContract opt p).base.r
      ∧ (4 < p.length → p[4]? = some (rowContract opt p).base.b)
      ∧ (p.length ≤ 4 → (rowContract opt p).base.b = (rowContract opt p).base.r)
      ∧ (rowContract opt p).base.optType = opt.base.optType
      ∧ (rowContract opt p).base.S = opt.base.S := by
  match p, hp with
  | [a, b, c, d], _ => delta rowContract; simp [OptionRef.base_modify]
  | a :: b :: c :: d :: e :: rest, _ => delta rowContract; simp [OptionRef.base_modify]

/-- C16: `Matrix` mutates only the five row-mapped fields. On a table of
well-formed rows the call returns, `optType` and the stored `S` of the contract
are unchanged, on an empty table the contract is entirely unchanged, and on a
non-empty table `T, K, sig, r` equal the last row's first four values and `b`
equals the last row's fifth value, or the last row's `r` when there is none. -/
theorem matrix_mutates_row_fields (opt : OptionRef) (rows : List (List ℝ)) (spots : List ℝ)
    (output : OutputType) (h : ℝ) (hrows : ∀ p ∈ rows, 4 ≤ p.length) :
    ∃ surface final, MatrixPricer.Matrix opt rows spots output h = some (surface, final)
      ∧ final.base.optType = opt.base.optType
      ∧ final.base.S = opt.base.S
      ∧ (rows = [] → final = opt)
      ∧ (∀ last, rows.getLast? = some last →
          last[0]? = some final.base.T
            ∧ last[1]? = some final.base.K
            ∧ last[2]? = some final.base.sig
            ∧ last[3]? = some final.base.r
            ∧ (4 < last.length → last[4]? = some final.base.b)
            ∧ (last.length ≤ 4 → final.base.b = final.base.r)) := by
  refine ⟨_, _, MatrixPricer.Matrix_eq opt rows spots output h hrows, ?_⟩
  cases hl : rows.getLast? with
  | none =>
    refine ⟨rfl, rfl, fun _ => rfl, ?_⟩
    intro last hlast
    cases hlast
  | some l =>
    have hmem : l ∈ rows := List.mem_of_getLast?_eq_some hl
    have hf := rowContract_fields opt l (hrows l hmem)
    refine ⟨hf.2.2.2.2.2.2.1, hf.2.2.2.2.2.2.2, ?_, ?_⟩
    · intro hnil
      rw [hnil] at hl
      simp at hl
    · intro last hlast
      cases hlast
      exact ⟨hf.1, hf.2.1, hf.2.2.1, hf.2.2.2.1, hf.2.2.2.2.1, hf.2.2.2.2.2.1⟩

theorem matrix_mutates_row_fields_witness :
    (∀ p ∈ sampleParamMatrixA, 4 ≤ p.length)
      ∧ ∃ surface final,
        MatrixPricer.Matrix (OptionRef.american sampleAmericanPut) sampleParamMatrixA [110]
            OutputType.Price 0.01 = some (surface, final)
        ∧ final.base.optType = (OptionRef.american sampleAmericanPut).base.optType
        ∧ final.base.S = (OptionRef.american sampleAmericanPut).base.S
        ∧ (sampleParamMatrixA = [] → final = OptionRef.american sampleAmericanPut)
        ∧ (∀ last, sampleParamMatrixA.getLast? = some last →
            last[0]? = some final.base.T
              ∧ last[1]? = some final.base.K
              ∧ last[2]? = some final.base.sig
              ∧ last[3]? = some final.base.r
              ∧ (4 < last.length → last[4]? = some final.base.b)
              ∧ (last.length ≤ 4 → final.base.b = final.base.r)) :=
  have hrows : ∀ p ∈ sampleParamMatrixA, 4 ≤ p.length := by
    delta sampleParamMatrixA; simp
  ⟨hrows, matrix_mutates_row_fields (OptionRef.american sampleAmericanPut) sampleParamMatrixA
    [110] OutputType.Price 0.01 hrows⟩

/-- C17 (the code at a malformed table): on the table whose only row is
`1.0, 100.0, 0.15` the loop body of `Matrix` reads `p[3]` past the end of the
row. The run has no defined result: no surface, and no error that names the
row. -/
theorem matrix_short_row_reads_past_end :
    shortParamMatrix[0]? = some ([1.0, 100.0, 0.15] : List ℝ)
      ∧ ([1.0, 100.0, 0.15] : List ℝ)[3]? = none
      ∧ MatrixPricer.assignRow (OptionRef.european sampleCall) [1.0, 100.0, 0.15] = none
      ∧ MatrixPricer.Matrix (OptionRef.european sampleCall) shortParamMatrix [10]
          OutputType.Price 0.01 = none := by
  refine ⟨rfl, rfl, ?_, ?_⟩
  · delta MatrixPricer.assignRow
    simp
  · delta MatrixPricer.Matrix shortParamMatrix MatrixPricer.assignRow
    simp

/-! ## Convergence of the finite differences -/

open Filter Topology

/-- The central difference quotient of a function differentiable at `x` tends
to the derivative as the step tends to zero. -/
theorem tendsto_central_difference {f : ℝ → ℝ} {f' x : ℝ} (hf : HasDerivAt f f' x) :
    Tendsto (fun h => (f (x + h) - f (x - h)) / (2 * h)) (𝓝[≠] 0) (𝓝 f') := by
  have hslope : Tendsto (fun t => t⁻¹ • (f (x + t) - f x)) (𝓝[≠] 0) (𝓝 f') :=
    hasDerivAt_iff_tendsto_slope_zero.mp hf
  have hneg : Tendsto (fun t : ℝ => -t) (𝓝[≠] 0) (𝓝[≠] 0) := by
    apply tendsto_nhdsWithin_of_tendsto_nhds_of_eventually_within
    · have hc : Tendsto (fun t : ℝ => -t) (𝓝 0) (𝓝 (-0)) := (continuous_neg.tendsto 0)
      rw [neg_zero] at hc
      exact hc.mono_left nhdsWithin_le_nhds
    · filter_upwards [self_mem_nhdsWithin] with t ht
      simpa using ht
  have hslope2 := hslope.comp hneg
  have hsum := (hslope.add hslope2).div_const 2
  have hlim : (f' + f') / 2 = f' := by ring
  rw [hlim] at hsum
  refine hsum.congr' ?_
  filter_upwards [self_mem_nhdsWithin] with t _
  show (t⁻¹ * (f (x + t) - f x) + (-t)⁻¹ * (f (x + -t) - f x)) / 2
    = (f (x + t) - f (x - t)) / (2 * t)
  rw [inv_neg, ← sub_eq_add_neg]
  ring

/-- C11: the finite-difference Delta converges to the exact Delta. For a
European contract with `K > 0`, `sig > 0`, `T > 0` and every `S > 0`,
`Greeks::DeltaFD(opt, S, h)` tends to `Greeks::Delta(opt, S)` as `h -> 0` with
`h > 0`. -/
theorem deltaFD_converges_to_delta (opt : EuropeanOption) (S : ℝ)
    (hS : 0 < S) (hK : 0 < opt.K) (hsig : 0 < opt.sig) (hT : 0 < opt.T) :
    Tendsto (fun h => Greeks.DeltaFD (OptionRef.european opt) S h) (𝓝[>] 0)
      (𝓝 (Greeks.Delta opt S)) := by
  have h := tendsto_central_difference (hasDerivAt_price_spot opt S hS hK hsig hT)
  have e2 : (2.0 : ℝ) = 2 := by norm_num
  have hfun : (fun h => Greeks.DeltaFD (OptionRef.european opt) S h)
      = fun h => (opt.Price (S + h) - opt.Price (S - h)) / (2 * h) := by
    funext h
    show (opt.Price (S + h) - opt.Price (S - h)) / (2.0 * h) = _
    rw [e2]
  rw [hfun]
  exact h.mono_left (nhdsWithin_mono _ (fun _ ht => ne_of_gt ht))

theorem deltaFD_converges_to_delta_witness :
    (0 : ℝ) < 100 ∧ 0 < sampleCall.K ∧ 0 < sampleCall.sig ∧ 0 < sampleCall.T
      ∧ Tendsto (fun h => Greeks.DeltaFD (OptionRef.european sampleCall) 100 h) (𝓝[>] 0)
          (𝓝 (Greeks.Delta sampleCall 100)) :=
  have hK : 0 < sampleCall.K := by show (0 : ℝ) < 100; norm_num
  have hsig : 0 < sampleCall.sig := by show (0 : ℝ) < 0.2; norm_num
  have hT : 0 < sampleCall.T := by show (0 : ℝ) < 1; norm_num
  ⟨by norm_num, hK, hsig, hT, deltaFD_converges_to_delta sampleCall 100 (by norm_num) hK hsig hT⟩

/-- C12: the finite-difference Gamma converges to the exact Gamma. For a
European contract with `K > 0`, `sig > 0`, `T > 0` and every `S > 0`,
`Greeks::GammaFD(opt, S, h)` tends to `Greeks::Gamma(opt, S)` as `h -> 0` with
`h > 0`, and `Gamma` is the second spot derivative of `Price` at `S`. -/
theorem gammaFD_converges_to_gamma (opt : EuropeanOption) (S : ℝ)
    (hS : 0 < S) (hK : 0 < opt.K) (hsig : 0 < opt.sig) (hT : 0 < opt.T) :
    Tendsto (fun h => Greeks.GammaFD (OptionRef.european opt) S h) (𝓝[>] 0)
        (𝓝 (Greeks.Gamma opt S))
      ∧ deriv (deriv fun s => opt.Price s) S = Greeks.Gamma opt S := by
  -- `Gamma` is the spot derivative of `Delta`
  have hdelta : HasDerivAt (fun s => Greeks.Delta opt s) (Greeks.Gamma opt S) S := by
    have htmp : 0 < opt.sig * Real.sqrt opt.T := mul_pos hsig (Real.sqrt_pos.mpr hT)
    have hd1 := hasDerivAt_d1_spot opt.K ((opt.b + 0.5 * opt.sig * opt.sig) * opt.T)
      (opt.sig * Real.sqrt opt.T) S hS hK
    have hcdf : HasDerivAt (fun s => N_cdf ((Real.log (s / opt.K)
        + (opt.b + 0.5 * opt.sig * opt.sig) * opt.T) / (opt.sig * Real.sqrt opt.T)))
        (N_pdf ((Real.log (S / opt.K) + (opt.b + 0.5 * opt.sig * opt.sig) * opt.T)
          / (opt.sig * Real.sqrt opt.T)) * (1 / S / (opt.sig * Real.sqrt opt.T))) S :=
      (N_cdf_hasDerivAt _).comp S hd1
    have hgamma : Real.exp ((opt.b - opt.r) * opt.T)
        * (N_pdf ((Real.log (S / opt.K) + (opt.b + 0.5 * opt.sig * opt.sig) * opt.T)
          / (opt.sig * Real.sqrt opt.T)) * (1 / S / (opt.sig * Real.sqrt opt.T)))
        = Greeks.Gamma opt S := by
      delta Greeks.Gamma
      field_simp
    by_cases hC : opt.optType = "C"
    · have hfun : (fun s => Greeks.Delta opt s) = fun s =>
          Real.exp ((opt.b - opt.r) * opt.T) * N_cdf ((Real.log (s / opt.K)
            + (opt.b + 0.5 * opt.sig * opt.sig) * opt.T) / (opt.sig * Real.sqrt opt.T)) := by
        funext s; delta Greeks.Delta; simp only [hC, if_true]
      rw [hfun, ← hgamma]
      exact hcdf.const_mul _
    · have hfun : (fun s => Greeks.Delta opt s) = fun s =>
          Real.exp ((opt.b - opt.r) * opt.T) * (N_cdf ((Real.log (s / opt.K)
            + (opt.b + 0.5 * opt.sig * opt.sig) * opt.T) / (opt.sig * Real.sqrt opt.T))
            - 1.0) := by
        funext s; delta Greeks.Delta; simp only [hC, if_false]
      rw [hfun, ← hgamma]
      exact (hcdf.sub_const _).const_mul _
  constructor
  · -- L'Hopital's rule on the second difference quotient
    have hsmall : ∀ᶠ h : ℝ in 𝓝[>] 0, 0 < h ∧ h < S := by
      have h1 : ∀ᶠ h : ℝ in 𝓝[>] 0, 0 < h := self_mem_nhdsWithin
      have h2 : ∀ᶠ h : ℝ in 𝓝[>] 0, h < S :=
        (eventually_lt_nhds hS).filter_mono nhdsWithin_le_nhds
      exact h1.and h2
    have hnum : ∀ᶠ h : ℝ in 𝓝[>] 0,
        HasDerivAt (fun t => opt.Price (S + t) - 2.0 * opt.Price S + opt.Price (S - t))
          (Greeks.Delta opt (S + h) - Greeks.Delta opt (S - h)) h := by
      filter_upwards [hsmall] with h hh
      have hp := hasDerivAt_price_spot opt (S + h) (by linarith) hK hsig hT
      have hm := hasDerivAt_price_spot opt (S - h) (by linarith) hK hsig hT
      have hp2 : HasDerivAt (fun t => opt.Price (S + t)) (Greeks.Delta opt (S + h)) h := by
        have := hp.comp h ((hasDerivAt_id h).const_add S)
        simpa using this
      have hm2 : HasDerivAt (fun t => opt.Price (S - t)) (-(Greeks.Delta opt (S - h))) h := by
        have := hm.comp h ((hasDerivAt_id h).const_sub S)
        simpa using this
      have := (hp2.sub_const (2.0 * opt.Price S)).add hm2
      simpa [sub_eq_add_neg] using this
    have hden : ∀ᶠ h : ℝ in 𝓝[>] 0, HasDerivAt (fun t : ℝ => t * t) (2 * h) h := by
      filter_upwards with h
      have := (hasDerivAt_id h).mul (hasDerivAt_id h)
      simpa [two_mul] using this
    have hden0 : ∀ᶠ h : ℝ in 𝓝[>] 0, 2 * h ≠ 0 := by
      filter_upwards [hsmall] with h hh
      exact (mul_pos two_pos hh.1).ne.symm
    have hcont : ContinuousAt (fun t => opt.Price (S + t) - 2.0 * opt.Price S
        + opt.Price (S - t)) 0 := by
      have hp := (hasDerivAt_price_spot opt S hS hK hsig hT).continuousAt
      have hp2 : ContinuousAt (fun t => opt.Price (S + t)) 0 := by
        have hc : ContinuousAt (fun t : ℝ => S + t) 0 := by fun_prop
        have hp0 : ContinuousAt (fun s => opt.Price s) (S + 0) := by simpa using hp
        exact ContinuousAt.comp (g := fun s => opt.Price s) hp0 hc
      have hm2 : ContinuousAt (fun t => opt.Price (S - t)) 0 := by
        have hc : ContinuousAt (fun t : ℝ => S - t) 0 := by fun_prop
        have hp0 : ContinuousAt (fun s => opt.Price s) (S - 0) := by simpa using hp
        exact ContinuousAt.comp (g := fun s => opt.Price s) hp0 hc
      exact (hp2.sub continuousAt_const).add hm2
    have hnum0 : Tendsto (fun t => opt.Price (S + t) - 2.0 * opt.Price S + opt.Price (S - t))
        (𝓝[>] 0) (𝓝 0) := by
      have h0 := hcont.tendsto
      have hval : opt.Price (S + 0) - 2.0 * opt.Price S + opt.Price (S - 0) = 0 := by
        norm_num
        ring
      simp only [hval] at h0
      exact h0.mono_left nhdsWithin_le_nhds
    have hden00 : Tendsto (fun t : ℝ => t * t) (𝓝[>] 0) (𝓝 0) := by
      have hc : ContinuousAt (fun t : ℝ => t * t) 0 := by fun_prop
      have h0 := hc.tendsto
      simp only [mul_zero] at h0
      exact h0.mono_left nhdsWithin_le_nhds
    have hratio : Tendsto
        (fun h => (Greeks.Delta opt (S + h) - Greeks.Delta opt (S - h)) / (2 * h))
        (𝓝[>] 0) (𝓝 (Greeks.Gamma opt S)) :=
      (tendsto_central_difference hdelta).mono_left
        (nhdsWithin_mono _ (fun _ ht => ne_of_gt ht))
    exact HasDerivAt.lhopital_zero_nhds_right hnum hden hden0 hnum0 hden00 hratio
  · have hev : (deriv fun s => opt.Price s) =ᶠ[𝓝 S] fun s => Greeks.Delta opt s := by
      filter_upwards [eventually_gt_nhds hS] with s hs
      exact (hasDerivAt_price_spot opt s hs hK hsig hT).deriv
    rw [hev.deriv_eq]
    exact hdelta.deriv

theorem gammaFD_converges_to_gamma_witness :
    (0 : ℝ) < 100 ∧ 0 < samplePut.K ∧ 0 < samplePut.sig ∧ 0 < samplePut.T
      ∧ Tendsto (fun h => Greeks.GammaFD (OptionRef.european samplePut) 100 h) (𝓝[>] 0)
          (𝓝 (Greeks.Gamma samplePut 100))
      ∧ deriv (deriv fun s => samplePut.Price s) 100 = Greeks.Gamma samplePut 100 :=
  have hK : 0 < samplePut.K := by show (0 : ℝ) < 100; norm_num
  have hsig : 0 < samplePut.sig := by show (0 : ℝ) < 0.2; norm_num
  have hT : 0 < samplePut.T := by show (0 : ℝ) < 1; norm_num
  ⟨by norm_num, hK, hsig, hT, gammaFD_converges_to_gamma samplePut 100 (by norm_num) hK hsig hT⟩


/-! ## Numerical enclosures -/

/-- Decimal enclosure of the sample call and put prices at spot `100`. -/
theorem sample_price_enclosure :
    ((10.450583 : ℝ) ≤ sampleCall.Price 100 ∧ sampleCall.Price 100 ≤ 10.450584)
      ∧ ((5.573526 : ℝ) ≤ samplePut.Price 100 ∧ samplePut.Price 100 ≤ 5.573527) := by
  obtain ⟨hn1, hn2⟩ : (0.6368306511 : ℝ) ≤ N_cdf 0.35 ∧ N_cdf 0.35 ≤ 0.6368306514 :=
    N_cdf_enclosure 0.35 0.6368306511 0.6368306514 (by norm_num) (by norm_num) (by norm_num)
      (by norm_num) (by norm_num) (by norm_num)
  obtain ⟨hm1, hm2⟩ : (0.5596176923 : ℝ) ≤ N_cdf 0.15 ∧ N_cdf 0.15 ≤ 0.5596176924 :=
    N_cdf_enclosure 0.15 0.5596176923 0.5596176924 (by norm_num) (by norm_num) (by norm_num)
      (by norm_num) (by norm_num) (by norm_num)
  obtain ⟨he1, he2⟩ : (0.9512294245 : ℝ) ≤ Real.exp (-0.05)
      ∧ Real.exp (-0.05) ≤ 0.9512294246 := by
    have h := exp_taylor_enclosure (-0.05) (by norm_num [abs_le]) 7 (by norm_num)
    have habs : |(-0.05 : ℝ)| = 0.05 := by norm_num [abs_of_neg]
    rw [habs] at h
    simp only [Finset.sum_range_succ, Finset.sum_range_zero, Nat.factorial] at h
    norm_num at h
    constructor <;> linarith [h.1, h.2]
  have hd1 : (Real.log (100 / 100) + ((0.05 : ℝ) + 0.5 * 0.2 * 0.2) * 1) / (0.2 * Real.sqrt 1)
      = 0.35 := by
    rw [Real.sqrt_one, div_self (by norm_num : (100 : ℝ) ≠ 0), Real.log_one]
    norm_num
  have hd2 : (0.35 : ℝ) - 0.2 * Real.sqrt 1 = 0.15 := by
    rw [Real.sqrt_one]; norm_num
  have hx1 : Real.exp (((0.05 : ℝ) - 0.05) * 1) = 1 := by
    rw [sub_self, zero_mul, Real.exp_zero]
  have hx2 : (-(0.05 : ℝ) * 1) = -0.05 := by norm_num
  have hcallPrice : sampleCall.CallPrice 100
      = 100 * N_cdf 0.35 - 100 * Real.exp (-0.05) * N_cdf 0.15 := by
    show (100 : ℝ) * Real.exp (((0.05 : ℝ) - 0.05) * 1)
        * N_cdf ((Real.log (100 / 100) + ((0.05 : ℝ) + 0.5 * 0.2 * 0.2) * 1)
          / (0.2 * Real.sqrt 1))
      - 100 * Real.exp (-(0.05 : ℝ) * 1)
        * N_cdf ((Real.log (100 / 100) + ((0.05 : ℝ) + 0.5 * 0.2 * 0.2) * 1)
          / (0.2 * Real.sqrt 1) - 0.2 * Real.sqrt 1) = _
    rw [hd1, hd2, hx1, hx2, mul_one]
  have hcall : sampleCall.Price 100
      = 100 * N_cdf 0.35 - 100 * Real.exp (-0.05) * N_cdf 0.15 := by
    rw [← hcallPrice]; rfl
  have hput : samplePut.Price 100
      = 100 * N_cdf 0.35 - 100 * Real.exp (-0.05) * N_cdf 0.15
        - (100 - 100 * Real.exp (-0.05)) := by
    have h1 : samplePut.Price 100 = samplePut.PutPrice 100 := rfl
    have h2 : samplePut.CallPrice 100 = sampleCall.CallPrice 100 := rfl
    have h3 : samplePut.CallPrice 100 - samplePut.PutPrice 100
        = 100 * Real.exp (((0.05 : ℝ) - 0.05) * 1) - 100 * Real.exp (-(0.05 : ℝ) * 1) :=
      samplePut.call_sub_put 100
    rw [hx1, hx2, h2, hcallPrice] at h3
    rw [h1]
    linarith
  have hprod_lo : (0.9512294245 : ℝ) * 0.5596176923 ≤ Real.exp (-0.05) * N_cdf 0.15 :=
    mul_le_mul he1 hm1 (by norm_num) (by linarith)
  have hprod_hi : Real.exp (-0.05) * N_cdf 0.15 ≤ (0.9512294246 : ℝ) * 0.5596176924 :=
    mul_le_mul he2 hm2 (by linarith) (by norm_num)
  rw [hcall, hput]
  refine ⟨⟨?_, ?_⟩, ⟨?_, ?_⟩⟩ <;> nlinarith

/-! ## Literal scenarios -/

/-- C19 (amended): literal European scenario. For the European contract with
`T = 1.0, K = 100, sig = 0.2, r = 0.05, b = 0.05` (any stored spot) at spot
`S = 100`, `Price` is `10.45058` for the call and `5.57353` for the put, each to
within `5e-6`. -/
theorem european_literal_scenario (S0 : ℝ) :
    |EuropeanOption.Price
        { r := 0.05, sig := 0.2, K := 100, T := 1, b := 0.05, S := S0, optType := "C" } 100
      - 10.45058| < 5e-6
    ∧ |EuropeanOption.Price
        { r := 0.05, sig := 0.2, K := 100, T := 1, b := 0.05, S := S0, optType := "P" } 100
      - 5.57353| < 5e-6 := by
  obtain ⟨⟨hc1, hc2⟩, ⟨hp1, hp2⟩⟩ := sample_price_enclosure
  have hc : EuropeanOption.Price
      { r := 0.05, sig := 0.2, K := 100, T := 1, b := 0.05, S := S0, optType := "C" } 100
      = sampleCall.Price 100 := by
    rfl
  have hp : EuropeanOption.Price
      { r := 0.05, sig := 0.2, K := 100, T := 1, b := 0.05, S := S0, optType := "P" } 100
      = samplePut.Price 100 := by
    rfl
  rw [hc, hp, abs_lt, abs_lt]
  refine ⟨⟨?_, ?_⟩, ⟨?_, ?_⟩⟩ <;> linarith

/-- C19 as stated fails: for the contract of the scenario the call price is not
within `5e-6` of `8.91600` and the put price is not within `5e-6` of `6.20957`. -/
theorem european_literal_scenario_fails :
    ¬ (|EuropeanOption.Price
          { r := 0.05, sig := 0.2, K := 100, T := 1, b := 0.05, S := 100, optType := "C" } 100
        - 8.91600| ≤ 5e-6)
    ∧ ¬ (|EuropeanOption.Price
          { r := 0.05, sig := 0.2, K := 100, T := 1, b := 0.05, S := 100, optType := "P" } 100
        - 6.20957| ≤ 5e-6) := by
  obtain ⟨⟨hc1, hc2⟩, ⟨hp1, hp2⟩⟩ := sample_price_enclosure
  have hc : EuropeanOption.Price
      { r := 0.05, sig := 0.2, K := 100, T := 1, b := 0.05, S := 100, optType := "C" } 100
      = sampleCall.Price 100 := by
    rfl
  have hp : EuropeanOption.Price
      { r := 0.05, sig := 0.2, K := 100, T := 1, b := 0.05, S := 100, optType := "P" } 100
      = samplePut.Price 100 := by
    rfl
  rw [hc, hp]
  constructor
  · intro h
    have := (abs_le.mp h).2
    linarith
  · intro h
    have := (abs_le.mp h).1
    linarith


set_option maxHeartbeats 1600000 in
/-- C20: literal Perpetual American scenario. For the Perpetual American
contract with `K = 100, sig = 0.1, r = 0.1, b = 0.02` (any maturity and stored
spot) at spot `S = 110`, `Price` is `18.5035` for the call, within `5e-5`, and
`3.03106` for the put, within `5e-6`. -/
theorem american_literal_scenario (T0 S0 : ℝ) :
    |AmericanOption.Price
        { r := 0.1, sig := 0.1, K := 100, T := T0, b := 0.02, S := S0, optType := "C" } 110
      - 18.5035| < 5e-5
    ∧ |AmericanOption.Price
        { r := 0.1, sig := 0.1, K := 100, T := T0, b := 0.02, S := S0, optType := "P" } 110
      - 3.03106| < 5e-6 := by
  obtain ⟨hr1, hr2⟩ : (4.716990566 : ℝ) ≤ Real.sqrt 22.25
      ∧ Real.sqrt 22.25 ≤ 4.716990567 := by
    constructor
    · apply Real.le_sqrt_of_sq_le
      norm_num
    · rw [Real.sqrt_le_left (by norm_num)]
      norm_num
  have hb : (0.02 : ℝ) / (0.1 * 0.1) = 2 := by norm_num
  have hd : ((2 : ℝ) - 0.5) ^ (2 : ℝ) + 2 * 0.1 / (0.1 * 0.1) = 22.25 := by
    rw [Real.rpow_two]; norm_num
  have e1 : (1.0 : ℝ) = 1 := by norm_num
  have e0 : (0.0 : ℝ) = 0 := by norm_num
  have hy1 : (1 : ℝ) < 0.5 - 2 + Real.sqrt 22.25 := by linarith
  have hy2 : (0.5 : ℝ) - 2 - Real.sqrt 22.25 < 0 := by linarith
  have hc : AmericanOption.Price
      { r := 0.1, sig := 0.1, K := 100, T := T0, b := 0.02, S := S0, optType := "C" } 110
      = 100 / ((0.5 - 2 + Real.sqrt 22.25) - 1)
        * (((0.5 - 2 + Real.sqrt 22.25) - 1) / (0.5 - 2 + Real.sqrt 22.25) * 110 / 100)
          ^ (0.5 - 2 + Real.sqrt 22.25) := by
    show AmericanOption.CallPriceAmerican
      { r := 0.1, sig := 0.1, K := 100, T := T0, b := 0.02, S := S0, optType := "C" } 110 = _
    delta AmericanOption.CallPriceAmerican
    simp only [hb, hd, e1, e0]
    rw [if_pos hy1]
  have hp : AmericanOption.Price
      { r := 0.1, sig := 0.1, K := 100, T := T0, b := 0.02, S := S0, optType := "P" } 110
      = 100 / (1 - (0.5 - 2 - Real.sqrt 22.25))
        * (((0.5 - 2 - Real.sqrt 22.25) - 1) / (0.5 - 2 - Real.sqrt 22.25) * 110 / 100)
          ^ (0.5 - 2 - Real.sqrt 22.25) := by
    show AmericanOption.PutPriceAmerican
      { r := 0.1, sig := 0.1, K := 100, T := T0, b := 0.02, S := S0, optType := "P" } 110 = _
    delta AmericanOption.PutPriceAmerican
    simp only [hb, hd, e1, e0]
    rw [if_pos hy2]
  -- numerical core of the call: the closed form on the enclosure of `y1`
  have hcallcore : ∀ y : ℝ, 3.216990566 ≤ y → y ≤ 3.216990567 →
      18.50345 < 100 / (y - 1) * ((y - 1) / y * 110 / 100) ^ y
        ∧ 100 / (y - 1) * ((y - 1) / y * 110 / 100) ^ y < 18.50355 := by
    clear hc hp hb hd e1 e0 hy1 hy2 hr1 hr2
    intro y h1 h2
    have hy : 0 < y := by linarith
    have hy1 : 0 < y - 1 := by linarith
    have hx1 : (0.7580655188 : ℝ) ≤ (y - 1) / y * 110 / 100 := by
      rw [div_mul_eq_mul_div, div_div, le_div_iff₀ (by positivity)]
      linarith
    have hx2 : (y - 1) / y * 110 / 100 ≤ 0.7580655190 := by
      rw [div_mul_eq_mul_div, div_div, div_le_iff₀ (by positivity)]
      linarith
    generalize (y - 1) / y * 110 / 100 = x at hx1 hx2 ⊢
    have hx : 0 < x := by linarith
    have hL1 : (-0.276985461 : ℝ) ≤ Real.log x := by
      rw [Real.le_log_iff_exp_le hx]
      have h := (exp_taylor_enclosure (-0.276985461) (by norm_num [abs_le]) 9 (by norm_num)).2
      have habs : |(-0.276985461 : ℝ)| = 0.276985461 := by norm_num [abs_of_neg]
      rw [habs] at h
      simp only [Finset.sum_range_succ, Finset.sum_range_zero, Nat.factorial] at h
      norm_num at h
      linarith
    have hL2 : Real.log x ≤ -0.276985460 := by
      rw [Real.log_le_iff_le_exp hx]
      have h := (exp_taylor_enclosure (-0.276985460) (by norm_num [abs_le]) 9 (by norm_num)).1
      have habs : |(-0.276985460 : ℝ)| = 0.276985460 := by norm_num [abs_of_neg]
      rw [habs] at h
      simp only [Finset.sum_range_succ, Finset.sum_range_zero, Nat.factorial] at h
      norm_num at h
      linarith
    rw [Real.rpow_def_of_pos hx]
    have hM1 : (-0.891059616 : ℝ) ≤ Real.log x * y := by nlinarith
    have hM2 : Real.log x * y ≤ -0.891059610 := by nlinarith
    have hP1 : (0.41022084 : ℝ) ≤ Real.exp (Real.log x * y) := by
      refine le_trans ?_ (Real.exp_le_exp.mpr hM1)
      have h := (exp_taylor_enclosure (-0.891059616) (by norm_num [abs_le]) 14 (by norm_num)).1
      have habs : |(-0.891059616 : ℝ)| = 0.891059616 := by norm_num [abs_of_neg]
      rw [habs] at h
      simp only [Finset.sum_range_succ, Finset.sum_range_zero, Nat.factorial] at h
      norm_num at h
      linarith
    have hP2 : Real.exp (Real.log x * y) ≤ 0.41022085 := by
      refine le_trans (Real.exp_le_exp.mpr hM2) ?_
      have h := (exp_taylor_enclosure (-0.891059610) (by norm_num [abs_le]) 14 (by norm_num)).2
      have habs : |(-0.891059610 : ℝ)| = 0.891059610 := by norm_num [abs_of_neg]
      rw [habs] at h
      simp only [Finset.sum_range_succ, Finset.sum_range_zero, Nat.factorial] at h
      norm_num at h
      linarith
    have hA1 : (45.1061 : ℝ) ≤ 100 / (y - 1) := by
      rw [le_div_iff₀ hy1]; linarith
    have hA2 : 100 / (y - 1) ≤ 45.1062 := by
      rw [div_le_iff₀ hy1]; linarith
    generalize Real.exp (Real.log x * y) = P at hP1 hP2 ⊢
    generalize 100 / (y - 1) = A at hA1 hA2 ⊢
    constructor <;> nlinarith
  -- numerical core of the put: the closed form on the enclosure of `y2`
  have hputcore : ∀ y : ℝ, -6.216990567 ≤ y → y ≤ -6.216990566 →
      3.031055 < 100 / (1 - y) * ((y - 1) / y * 110 / 100) ^ y
        ∧ 100 / (1 - y) * ((y - 1) / y * 110 / 100) ^ y < 3.031065 := by
    clear hc hp hb hd e1 e0 hy1 hy2 hr1 hr2 hcallcore
    intro y h1 h2
    have hy : y < 0 := by linarith
    have hy1 : 0 < 1 - y := by linarith
    have hxeq : (y - 1) / y * 110 / 100 = (1 - y) * 110 / (-y * 100) := by
      have hne : y ≠ 0 := hy.ne
      field_simp
      ring
    have hden : 0 < -y * 100 := by linarith
    have hx1 : (1.2769344811 : ℝ) ≤ (y - 1) / y * 110 / 100 := by
      rw [hxeq, le_div_iff₀ hden]
      linarith
    have hx2 : (y - 1) / y * 110 / 100 ≤ 1.2769344812 := by
      rw [hxeq, div_le_iff₀ hden]
      linarith
    generalize (y - 1) / y * 110 / 100 = x at hx1 hx2 ⊢
    have hx : 0 < x := by linarith
    have hL1 : (0.244462268 : ℝ) ≤ Real.log x := by
      rw [Real.le_log_iff_exp_le hx]
      have h := (exp_taylor_enclosure 0.244462268 (by norm_num [abs_le]) 9 (by norm_num)).2
      have habs : |(0.244462268 : ℝ)| = 0.244462268 := by norm_num [abs_of_pos]
      rw [habs] at h
      simp only [Finset.sum_range_succ, Finset.sum_range_zero, Nat.factorial] at h
      norm_num at h
      linarith
    have hL2 : Real.log x ≤ 0.244462269 := by
      rw [Real.log_le_iff_le_exp hx]
      have h := (exp_taylor_enclosure 0.244462269 (by norm_num [abs_le]) 9 (by norm_num)).1
      have habs : |(0.244462269 : ℝ)| = 0.244462269 := by norm_num [abs_of_pos]
      rw [habs] at h
      simp only [Finset.sum_range_succ, Finset.sum_range_zero, Nat.factorial] at h
      norm_num at h
      linarith
    rw [Real.rpow_def_of_pos hx]
    have hsq : Real.exp (Real.log x * y)
        = Real.exp (Real.log x * y / 2) * Real.exp (Real.log x * y / 2) := by
      rw [← Real.exp_add]; congr 1; ring
    have hM1 : (-0.759909812 : ℝ) ≤ Real.log x * y / 2 := by nlinarith
    have hM2 : Real.log x * y / 2 ≤ -0.759909806 := by nlinarith
    have hP1 : (0.467708606 : ℝ) ≤ Real.exp (Real.log x * y / 2) := by
      refine le_trans ?_ (Real.exp_le_exp.mpr hM1)
      have h := (exp_taylor_enclosure (-0.759909812) (by norm_num [abs_le]) 13 (by norm_num)).1
      have habs : |(-0.759909812 : ℝ)| = 0.759909812 := by norm_num [abs_of_neg]
      rw [habs] at h
      simp only [Finset.sum_range_succ, Finset.sum_range_zero, Nat.factorial] at h
      norm_num at h
      linarith
    have hP2 : Real.exp (Real.log x * y / 2) ≤ 0.467708610 := by
      refine le_trans (Real.exp_le_exp.mpr hM2) ?_
      have h := (exp_taylor_enclosure (-0.759909806) (by norm_num [abs_le]) 13 (by norm_num)).2
      have habs : |(-0.759909806 : ℝ)| = 0.759909806 := by norm_num [abs_of_neg]
      rw [habs] at h
      simp only [Finset.sum_range_succ, Finset.sum_range_zero, Nat.factorial] at h
      norm_num at h
      linarith
    have hB1 : (13.85619103 : ℝ) ≤ 100 / (1 - y) := by
      rw [le_div_iff₀ hy1]; linarith
    have hB2 : 100 / (1 - y) ≤ 13.85619104 := by
      rw [div_le_iff₀ hy1]; linarith
    rw [hsq]
    generalize Real.exp (Real.log x * y / 2) = P at hP1 hP2 ⊢
    generalize 100 / (1 - y) = B at hB1 hB2 ⊢
    have hPP1 : (0.467708606 : ℝ) * 0.467708606 ≤ P * P :=
      mul_le_mul hP1 hP1 (by norm_num) (by linarith)
    have hPP2 : P * P ≤ (0.467708610 : ℝ) * 0.467708610 :=
      mul_le_mul hP2 hP2 (by linarith) (by norm_num)
    generalize P * P = Q at hPP1 hPP2 ⊢
    constructor <;> nlinarith
  obtain ⟨hc1, hc2⟩ := hcallcore (0.5 - 2 + Real.sqrt 22.25) (by linarith) (by linarith)
  obtain ⟨hp1, hp2⟩ := hputcore (0.5 - 2 - Real.sqrt 22.25) (by linarith) (by linarith)
  clear hcallcore hputcore
  rw [hc, hp, abs_lt, abs_lt]
  refine ⟨⟨?_, ?_⟩, ⟨?_, ?_⟩⟩ <;> linarith

/-! ## Construction defaults -/

/-- C21: construction defaults. A default-constructed European contract has
`r = 0.05, sig = 0.2, K = 100.0, T = 1.0, b = r = 0.05` and `optType` "C";
constructing with an explicit `optType` gives the same numeric fields with that
`optType`; the Perpetual American constructors yield the same field values. -/
theorem construction_defaults (S0 : ℝ) (optionType : String) :
    ((EuropeanOption.construct S0).r = 0.05
      ∧ (EuropeanOption.construct S0).sig = 0.2
      ∧ (EuropeanOption.construct S0).K = 100.0
      ∧ (EuropeanOption.construct S0).T = 1.0
      ∧ (EuropeanOption.construct S0).b = (EuropeanOption.construct S0).r
      ∧ (EuropeanOption.construct S0).b = 0.05
      ∧ (EuropeanOption.construct S0).optType = "C")
    ∧ ((EuropeanOption.constructWithType optionType S0).r = 0.05
      ∧ (EuropeanOption.constructWithType optionType S0).sig = 0.2
      ∧ (EuropeanOption.constructWithType optionType S0).K = 100.0
      ∧ (EuropeanOption.constructWithType optionType S0).T = 1.0
      ∧ (EuropeanOption.constructWithType optionType S0).b = 0.05
      ∧ (EuropeanOption.constructWithType optionType S0).optType = optionType)
    ∧ (AmericanOption.construct S0).toEuropeanOption = EuropeanOption.construct S0
    ∧ (AmericanOption.constructWithType optionType S0).toEuropeanOption
        = EuropeanOption.constructWithType optionType S0 :=
  ⟨⟨rfl, rfl, rfl, rfl, rfl, rfl, rfl⟩, ⟨rfl, rfl, rfl, rfl, rfl, rfl⟩, rfl, rfl⟩

/-! ## Parity conversions -/

/-- C27: the parity conversions are mutually inverse and consistent with
`CheckParity`. `CallFromPut(PutFromCall(C, ..), ..) = C`,
`PutFromCall(CallFromPut(P, ..), ..) = P`, and
`CheckParity(C, PutFromCall(C, S, K, r, T), S, K, r, T, tol)` is true for every
`tol > 0`. -/
theorem parity_conversions_inverse (C P S K r T tol : ℝ) (htol : 0 < tol) :
    CallFromPut (PutFromCall C S K r T) S K r T = C
      ∧ PutFromCall (CallFromPut P S K r T) S K r T = P
      ∧ CheckParity C (PutFromCall C S K r T) S K r T tol = true := by
  delta CallFromPut PutFromCall CheckParity
  refine ⟨by ring, by ring, ?_⟩
  have h0 : C - (C - S + K * Real.exp (-r * T)) - (S - K * Real.exp (-r * T)) = 0 := by ring
  simp only [h0, abs_zero, htol, decide_True]

theorem parity_conversions_inverse_witness :
    (0 : ℝ) < 1e-6
      ∧ CallFromPut (PutFromCall 2.13337 60 65 0.08 0.25) 60 65 0.08 0.25 = 2.13337
      ∧ PutFromCall (CallFromPut 5.84628 60 65 0.08 0.25) 60 65 0.08 0.25 = 5.84628
      ∧ CheckParity 2.13337 (PutFromCall 2.13337 60 65 0.08 0.25) 60 65 0.08 0.25 1e-6 = true :=
  ⟨by norm_num, parity_conversions_inverse 2.13337 5.84628 60 65 0.08 0.25 1e-6 (by norm_num)⟩

/-! ## Uniform mesh -/

/-- C23: the perpetual American price ignores maturity and the stored spot. Two
Perpetual American contracts that agree on `r, sig, K, b` and `optType` have the
same `Price(spot)` for every spot argument, whatever their `T` and stored `S`. -/
theorem american_price_ignores_maturity_and_spot (a1 a2 : AmericanOption)
    (hr : a1.r = a2.r) (hsig : a1.sig = a2.sig) (hK : a1.K = a2.K) (hb : a1.b = a2.b)
    (ht : a1.optType = a2.optType) (spot : ℝ) :
    a1.Price spot = a2.Price spot := by
  delta AmericanOption.Price AmericanOption.CallPriceAmerican AmericanOption.PutPriceAmerican
  simp only [hr, hsig, hK, hb, ht]

theorem american_price_ignores_maturity_and_spot_witness :
    sampleAmericanCall.r = ({ sampleAmericanCall with T := 0, S := 5 } : AmericanOption).r
      ∧ sampleAmericanCall.sig = ({ sampleAmericanCall with T := 0, S := 5 } : AmericanOption).sig
      ∧ sampleAmericanCall.K = ({ sampleAmericanCall with T := 0, S := 5 } : AmericanOption).K
      ∧ sampleAmericanCall.b = ({ sampleAmericanCall with T := 0, S := 5 } : AmericanOption).b
      ∧ sampleAmericanCall.optType
          = ({ sampleAmericanCall with T := 0, S := 5 } : AmericanOption).optType
      ∧ sampleAmericanCall.Price 110
          = AmericanOption.Price { sampleAmericanCall with T := 0, S := 5 } 110 :=
  ⟨rfl, rfl, rfl, rfl, rfl,
    american_price_ignores_maturity_and_spot sampleAmericanCall
      { sampleAmericanCall with T := 0, S := 5 } rfl rfl rfl rfl rfl 110⟩

/-- The perpetual price in the notation of the specification: the exponents are
written with `sig^2`, the branch tests with `1` and `0`. -/
theorem AmericanOption.Price_eq (opt : AmericanOption) (S : ℝ) :
    (opt.optType = "C" → opt.Price S =
        if 1 < 0.5 - opt.b / opt.sig ^ 2
            + Real.sqrt ((opt.b / opt.sig ^ 2 - 0.5) ^ 2 + 2 * opt.r / opt.sig ^ 2) then
          opt.K / (0.5 - opt.b / opt.sig ^ 2
              + Real.sqrt ((opt.b / opt.sig ^ 2 - 0.5) ^ 2 + 2 * opt.r / opt.sig ^ 2) - 1)
            * ((0.5 - opt.b / opt.sig ^ 2
              + Real.sqrt ((opt.b / opt.sig ^ 2 - 0.5) ^ 2 + 2 * opt.r / opt.sig ^ 2) - 1)
              / (0.5 - opt.b / opt.sig ^ 2
              + Real.sqrt ((opt.b / opt.sig ^ 2 - 0.5) ^ 2 + 2 * opt.r / opt.sig ^ 2))
              * S / opt.K)
              ^ (0.5 - opt.b / opt.sig ^ 2
              + Real.sqrt ((opt.b / opt.sig ^ 2 - 0.5) ^ 2 + 2 * opt.r / opt.sig ^ 2))
        else 0)
    ∧ (opt.optType ≠ "C" → opt.Price S =
        if 0.5 - opt.b / opt.sig ^ 2
            - Real.sqrt ((opt.b / opt.sig ^ 2 - 0.5) ^ 2 + 2 * opt.r / opt.sig ^ 2) < 0 then
          opt.K / (1 - (0.5 - opt.b / opt.sig ^ 2
              - Real.sqrt ((opt.b / opt.sig ^ 2 - 0.5) ^ 2 + 2 * opt.r / opt.sig ^ 2)))
            * ((0.5 - opt.b / opt.sig ^ 2
              - Real.sqrt ((opt.b / opt.sig ^ 2 - 0.5) ^ 2 + 2 * opt.r / opt.sig ^ 2) - 1)
              / (0.5 - opt.b / opt.sig ^ 2
              - Real.sqrt ((opt.b / opt.sig ^ 2 - 0.5) ^ 2 + 2 * opt.r / opt.sig ^ 2))
              * S / opt.K)
              ^ (0.5 - opt.b / opt.sig ^ 2
              - Real.sqrt ((opt.b / opt.sig ^ 2 - 0.5) ^ 2 + 2 * opt.r / opt.sig ^ 2))
        else 0) := by
  have e1 : (1.0 : ℝ) = 1 := by norm_num
  have e0 : (0.0 : ℝ) = 0 := by norm_num
  have hsq : opt.sig * opt.sig = opt.sig ^ 2 := (pow_two _).symm
  constructor
  · intro hC
    delta AmericanOption.Price AmericanOption.CallPriceAmerican
    simp only [hC, if_true, e1, e0, hsq, Real.rpow_two, gt_iff_lt]
  · intro hP
    delta AmericanOption.Price AmericanOption.PutPriceAmerican
    simp only [hP, if_false, e1, e0, hsq, Real.rpow_two]

/-- C25: the zero branch of the perpetual American put is unreachable for
positive rates. For `sig > 0` and `r > 0` (any `b`) the put exponent satisfies
`y2 < 0`, so for every `K > 0` and `S > 0` the put `Price(S)` is the closed form
`K/(1-y2) * ((y2-1)/y2 * S/K)^y2` and is strictly positive. -/
theorem american_put_always_closed_form (opt : AmericanOption) (S : ℝ)
    (hP : opt.optType ≠ "C") (hsig : 0 < opt.sig) (hr : 0 < opt.r) (hK : 0 < opt.K)
    (hS : 0 < S) :
    let sig2 := opt.sig ^ 2
    let bs := opt.b / sig2
    let disc := Real.sqrt ((bs - 0.5) ^ 2 + 2 * opt.r / sig2)
    let y2 := 0.5 - bs - disc
    y2 < 0
      ∧ opt.Price S = opt.K / (1 - y2) * ((y2 - 1) / y2 * S / opt.K) ^ y2
      ∧ 0 < opt.Price S := by
  intro sig2 bs disc y2
  have hy2 : y2 = 0.5 - bs - disc := rfl
  have hdisc : disc = Real.sqrt ((bs - 0.5) ^ 2 + 2 * opt.r / sig2) := rfl
  have hs2 : 0 < sig2 := pow_pos hsig 2
  have hPrice : opt.Price S = if y2 < 0 then
      opt.K / (1 - y2) * ((y2 - 1) / y2 * S / opt.K) ^ y2 else 0 :=
    (AmericanOption.Price_eq opt S).2 hP
  have hw : 0 < 2 * opt.r / sig2 := div_pos (mul_pos two_pos hr) hs2
  have hd : 0.5 - bs < disc := by
    by_cases hneg : 0.5 - bs < 0
    · exact lt_of_lt_of_le hneg (Real.sqrt_nonneg _)
    · rw [hdisc, Real.lt_sqrt (not_lt.mp hneg)]
      nlinarith
  have hy : y2 < 0 := by rw [hy2]; linarith
  have hform : opt.Price S = opt.K / (1 - y2) * ((y2 - 1) / y2 * S / opt.K) ^ y2 := by
    rw [hPrice, if_pos hy]
  refine ⟨hy, hform, ?_⟩
  rw [hform]
  have hbase : 0 < (y2 - 1) / y2 * S / opt.K :=
    div_pos (mul_pos (div_pos_of_neg_of_neg (by linarith) hy) hS) hK
  exact mul_pos (div_pos hK (by linarith)) (Real.rpow_pos_of_pos hbase _)

theorem american_put_always_closed_form_witness :
    sampleAmericanPut.optType ≠ "C" ∧ 0 < sampleAmericanPut.sig ∧ 0 < sampleAmericanPut.r
      ∧ 0 < sampleAmericanPut.K ∧ (0 : ℝ) < 110
      ∧ 0 < sampleAmericanPut.Price 110 :=
  have hne : sampleAmericanPut.optType ≠ "C" := by decide
  have hsig : 0 < sampleAmericanPut.sig := by show (0 : ℝ) < 0.1; norm_num
  have hr : 0 < sampleAmericanPut.r := by show (0 : ℝ) < 0.1; norm_num
  have hK : 0 < sampleAmericanPut.K := by show (0 : ℝ) < 100; norm_num
  ⟨hne, hsig, hr, hK, by norm_num,
    (american_put_always_closed_form sampleAmericanPut 110 hne hsig hr hK (by norm_num)).2.2⟩

/-- C26: in its non-zero branch the perpetual American price never falls below
intrinsic value. For `K > 0` and `S > 0`: if `y1 > 1` the call `Price(S)` is at
least `S - K`, with equality at the critical spot `S = K*y1/(y1-1)`; if `y2 < 0`
the put `Price(S)` is at least `K - S`, with equality at `S = K*y2/(y2-1)`. -/
theorem american_price_dominates_intrinsic (opt : AmericanOption) (S : ℝ)
    (hK : 0 < opt.K) (hS : 0 < S) :
    let sig2 := opt.sig ^ 2
    let bs := opt.b / sig2
    let disc := Real.sqrt ((bs - 0.5) ^ 2 + 2 * opt.r / sig2)
    let y1 := 0.5 - bs + disc
    let y2 := 0.5 - bs - disc
    (opt.optType = "C" → 1 < y1 →
        S - opt.K ≤ opt.Price S
          ∧ opt.Price (opt.K * y1 / (y1 - 1)) = opt.K * y1 / (y1 - 1) - opt.K)
      ∧ (opt.optType ≠ "C" → y2 < 0 →
        opt.K - S ≤ opt.Price S
          ∧ opt.Price (opt.K * y2 / (y2 - 1)) = opt.K - opt.K * y2 / (y2 - 1)) := by
  intro sig2 bs disc y1 y2
  have hK0 : opt.K ≠ 0 := hK.ne.symm
  constructor
  · intro hC hy
    have hPrice : ∀ s : ℝ, opt.Price s = if 1 < y1 then
        opt.K / (y1 - 1) * ((y1 - 1) / y1 * s / opt.K) ^ y1 else 0 :=
      fun s => (AmericanOption.Price_eq opt s).1 hC
    have hy0 : y1 ≠ 0 := by linarith
    have hy1 : y1 - 1 ≠ 0 := by linarith
    constructor
    · rw [hPrice S, if_pos hy]
      have hu : 0 < (y1 - 1) / y1 * S / opt.K :=
        div_pos (mul_pos (div_pos (by linarith) (by linarith)) hS) hK
      have hB := one_add_mul_self_le_rpow_one_add
        (show (-1 : ℝ) ≤ (y1 - 1) / y1 * S / opt.K - 1 by linarith) hy.le
      rw [add_sub_cancel] at hB
      have hc : 0 ≤ opt.K / (y1 - 1) := (div_pos hK (by linarith)).le
      have hid : S - opt.K
          = opt.K / (y1 - 1) * (1 + y1 * ((y1 - 1) / y1 * S / opt.K - 1)) := by
        field_simp
        ring
      rw [hid]
      exact mul_le_mul_of_nonneg_left hB hc
    · rw [hPrice _, if_pos hy]
      have hone : (y1 - 1) / y1 * (opt.K * y1 / (y1 - 1)) / opt.K = 1 := by
        field_simp
        ring
      rw [hone, Real.one_rpow]
      field_simp
      ring
  · intro hP hy
    have hPrice : ∀ s : ℝ, opt.Price s = if y2 < 0 then
        opt.K / (1 - y2) * ((y2 - 1) / y2 * s / opt.K) ^ y2 else 0 :=
      fun s => (AmericanOption.Price_eq opt s).2 hP
    have hy0 : y2 ≠ 0 := hy.ne
    have hy1 : y2 - 1 ≠ 0 := by linarith
    have hy1' : 1 - y2 ≠ 0 := by linarith
    constructor
    · rw [hPrice S, if_pos hy]
      have hv : 0 < (y2 - 1) / y2 * S / opt.K :=
        div_pos (mul_pos (div_pos_of_neg_of_neg (by linarith) hy) hS) hK
      have hlog := Real.log_le_sub_one_of_pos hv
      have hexp := Real.add_one_le_exp (Real.log ((y2 - 1) / y2 * S / opt.K) * y2)
      have hB : 1 + y2 * ((y2 - 1) / y2 * S / opt.K - 1)
          ≤ ((y2 - 1) / y2 * S / opt.K) ^ y2 := by
        rw [Real.rpow_def_of_pos hv]
        have := mul_le_mul_of_nonpos_right hlog hy.le
        linarith
      have hc : 0 ≤ opt.K / (1 - y2) := (div_pos hK (by linarith)).le
      have hid : opt.K - S
          = opt.K / (1 - y2) * (1 + y2 * ((y2 - 1) / y2 * S / opt.K - 1)) := by
        field_simp
        ring
      rw [hid]
      exact mul_le_mul_of_nonneg_left hB hc
    · rw [hPrice _, if_pos hy]
      have hone : (y2 - 1) / y2 * (opt.K * y2 / (y2 - 1)) / opt.K = 1 := by
        field_simp
        ring
      rw [hone, Real.one_rpow]
      field_simp
      ring

theorem american_price_dominates_intrinsic_witness :
    0 < sampleAmericanCall.K ∧ (0 : ℝ) < 110
      ∧ 110 - sampleAmericanCall.K ≤ sampleAmericanCall.Price 110 :=
  have hK : 0 < sampleAmericanCall.K := by show (0 : ℝ) < 100; norm_num
  have hy : 1 < 0.5 - sampleAmericanCall.b / sampleAmericanCall.sig ^ 2
      + Real.sqrt ((sampleAmericanCall.b / sampleAmericanCall.sig ^ 2 - 0.5) ^ 2
          + 2 * sampleAmericanCall.r / sampleAmericanCall.sig ^ 2) := by
    show 1 < 0.5 - (0.02 : ℝ) / 0.1 ^ 2
      + Real.sqrt (((0.02 : ℝ) / 0.1 ^ 2 - 0.5) ^ 2 + 2 * 0.1 / 0.1 ^ 2)
    have h : (2.5 : ℝ) < Real.sqrt (((0.02 : ℝ) / 0.1 ^ 2 - 0.5) ^ 2 + 2 * 0.1 / 0.1 ^ 2) := by
      rw [Real.lt_sqrt (by norm_num)]
      norm_num
    norm_num at h ⊢
    linarith
  ⟨hK, by norm_num,
    ((american_price_dominates_intrinsic sampleAmericanCall 110 hK (by norm_num)).1 rfl hy).1⟩
